import Mathlib

/-!
Verification of `sentence.py` (first-order sentences, CNF pipeline, unification)
from the `resolution` repository, via a shallow embedding in Lean 4.
-/

namespace Resolution

/-- Models the Python `Variable` class: an identity-typed symbol.  Two Python
`Variable` objects are equal only when they are the same object; the `id`
field models object identity, and `name` is the display name, which carries
no semantic weight. -/
structure Variable where
  id : Nat
  name : String
deriving DecidableEq, Repr

/-- Models terms: the Python `Variable` and `Function` classes.  A `Function`
has a string name and an ordered tuple of sub-terms (each a `Variable` or a
`Function`); equality is structural (`RecursiveObject.__eq__`: same class,
same name, same content), which for variables degenerates to object
identity. -/
inductive Term where
  | var (v : Variable)
  | func (name : String) (args : List Term)
deriving Repr

mutual
/-- Decidable structural equality of terms (`==` in Python: object identity
for variables, same name and ordered content for functions). -/
def Term.decEq : (a b : Term) → Decidable (a = b)
  | .var v, .var w =>
    if h : v = w then .isTrue (by rw [h]) else .isFalse (by simp [h])
  | .var _, .func _ _ => .isFalse (by simp)
  | .func _ _, .var _ => .isFalse (by simp)
  | .func n l, .func m k =>
    if h : n = m then
      match Term.decEqL l k with
      | .isTrue hl => .isTrue (by rw [h, hl])
      | .isFalse hl => .isFalse (by simp [hl])
    else .isFalse (by simp [h])

/-- Decidable equality of term lists. -/
def Term.decEqL : (l k : List Term) → Decidable (l = k)
  | [], [] => .isTrue rfl
  | [], _ :: _ => .isFalse (by simp)
  | _ :: _, [] => .isFalse (by simp)
  | a :: l, b :: k =>
    match Term.decEq a b, Term.decEqL l k with
    | .isTrue h1, .isTrue h2 => .isTrue (by rw [h1, h2])
    | .isFalse h1, _ => .isFalse (by simp [h1])
    | _, .isFalse h2 => .isFalse (by simp [h2])
end

instance : DecidableEq Term := Term.decEq

/-- Modelled from the spec: `substitution.py` is not under `src/`.  The spec
describes the `Substitution` collaborator as "a mapping from Variable to Term
with membership test, identity-on-miss lookup, and a merge operator that
fails on conflicting bindings".  It is modelled as an association list. -/
abbrev Sub : Type := List (Variable × Term)

/-- Lookup of a variable's binding, `None` when the variable is not a key. -/
def lookupT : Sub → Variable → Option Term
  | [], _ => none
  | (w, t) :: σ, v => if w = v then some t else lookupT σ v

/-- Modelled from the spec: the membership test (`v in subst`). -/
def hasKey (σ : Sub) (v : Variable) : Bool :=
  (lookupT σ v).isSome

/-- Modelled from the spec: lookup with "identity on miss" — `subst[v]`
returns the bound term, or the variable itself when unbound. -/
def applyV (σ : Sub) (v : Variable) : Term :=
  (lookupT σ v).getD (.var v)

/-- Modelled from the spec: `substitution[v] = t` single-binding assignment.
Substitutions never hold conflicting bindings (the spec's merge "fails on
conflicting bindings"); assigning a conflicting binding for an existing key
is modelled as a failure, surfacing as the enclosing unification's typed
`UnificationFailure` result. -/
def insertSub (σ : Sub) (v : Variable) (t : Term) : Option Sub :=
  match lookupT σ v with
  | some t' => if t' = t then some σ else none
  | none => some ((v, t) :: σ)

/-- Modelled from the spec: the merge operator `σ &= τ`, failing on
conflicting keys. -/
def mergeSub (σ τ : Sub) : Option Sub :=
  τ.foldlM (fun acc p => insertSub acc p.1 p.2) σ

mutual
/-- Models `Function.substituted(dic)`: applies a substitution to a term and
reports whether anything was substituted.  A `Variable` content item is
replaced exactly when it is a key of the substitution; a `Function` content
item is rewritten recursively. -/
def Term.substituted : Term → Sub → Term × Bool
  | .var v, σ =>
    match lookupT σ v with
    | some t => (t, true)
    | none => (.var v, false)
  | .func n args, σ =>
    let r := Term.substitutedL args σ
    (.func n r.1, r.2)

/-- The content loop of `Function.substituted`. -/
def Term.substitutedL : List Term → Sub → List Term × Bool
  | [], _ => ([], false)
  | t :: ts, σ =>
    let r := Term.substituted t σ
    let rs := Term.substitutedL ts σ
    (r.1 :: rs.1, r.2 || rs.2)
end

mutual
/-- `v` occurs (as a variable) somewhere in the term. -/
def occursV (v : Variable) : Term → Bool
  | .var w => v = w
  | .func _ args => occursVL v args

/-- List version of `occursV`. -/
def occursVL (v : Variable) : List Term → Bool
  | [] => false
  | t :: ts => occursV v t || occursVL v ts
end

/-- Models the Python `Sentence` hierarchy as a closed tagged union:
`Predicate(name, *args)` (ordered), `Not(inner)`, `And(*ops)` and `Or(*ops)`
(stored by the Python classes as `frozenset`s — the list here is one
iteration order of that set, and Python `==` is modelled by `peq` below),
`Implies(a, b)` (ordered pair), `IFF(a, b)` (the two constructor arguments;
its stored content is recovered by `iffContent`), `ForAll(v, body)` and
`Exists(v, body)`. -/
inductive Sentence where
  | pred (name : String) (args : List Term)
  | not (s : Sentence)
  | and (content : List Sentence)
  | or (content : List Sentence)
  | implies (a b : Sentence)
  | iff (a b : Sentence)
  | forAll (v : Variable) (body : Sentence)
  | exist (v : Variable) (body : Sentence)

mutual
/-- Number of sentence nodes (terms not counted); the termination measure
for the transformation passes. -/
def msize : Sentence → Nat
  | .pred _ _ => 1
  | .not s => 1 + msize s
  | .and l => 1 + msizeL l
  | .or l => 1 + msizeL l
  | .implies a b => 1 + msize a + msize b
  | .iff a b => 1 + msize a + msize b
  | .forAll _ b => 1 + msize b
  | .exist _ b => 1 + msize b

/-- Total size of a list of sentences. -/
def msizeL : List Sentence → Nat
  | [] => 0
  | s :: ss => msize s + msizeL ss
end

theorem msize_pos : ∀ S, 0 < msize S := by
  intro S; cases S <;> simp [msize]

theorem msize_le_of_mem {x : Sentence} : ∀ {l : List Sentence}, x ∈ l → msize x ≤ msizeL l := by
  intro l h
  induction l with
  | nil => cases h
  | cons y ys ih =>
    rcases List.mem_cons.mp h with h1 | h2
    · subst h1; simp [msizeL]
    · calc msize x ≤ msizeL ys := ih h2
        _ ≤ msizeL (y :: ys) := by simp [msizeL]

mutual
/-- Models Python `==` on sentences (`RecursiveObject.__eq__`: same class,
same `name`, same `content`).  `And`/`Or` content is a `frozenset`, so their
comparison is set equality (mutual containment, `psub`).  An `IFF` stores a
`frozenset` of its two operands unless they were `==`-equal, in which case
it stores the ordered pair `(a, b)`; a tuple never equals a `frozenset`, so
the representations are compared by cases.  Quantifier `name`s are
`Variable`s, compared by object identity. -/
def peq : Sentence → Sentence → Bool
  | .pred n a, .pred m b => decide (n = m) && decide (a = b)
  | .not s, .not t => peq s t
  | .and l, .and m => psub l m && psub m l
  | .or l, .or m => psub l m && psub m l
  | .implies a b, .implies c d => peq a c && peq b d
  | .iff a b, .iff c d =>
      if peq a b then peq c d && peq a c && peq b d
      else if peq c d then false
      else (peq a c && peq b d) || (peq a d && peq b c)
  | .forAll v b, .forAll w c => decide (v = w) && peq b c
  | .exist v b, .exist w c => decide (v = w) && peq b c
  | _, _ => false
termination_by a b => 3 * (msize a + msize b)
decreasing_by
  all_goals simp_wf
  all_goals simp [msize, msizeL]
  all_goals omega

/-- Every sentence of the first list is `peq` to some member of the second
(one inclusion of `frozenset` equality). -/
def psub : List Sentence → List Sentence → Bool
  | [], _ => true
  | x :: xs, m => pmem x m && psub xs m
termination_by l m => 3 * (msizeL l + msizeL m) + 2
decreasing_by
  all_goals simp_wf
  all_goals simp [msize, msizeL]
  all_goals first
    | omega
    | (have hp := msize_pos x; omega)

/-- Membership up to `peq` (Python `x in frozenset`). -/
def pmem : Sentence → List Sentence → Bool
  | _, [] => false
  | x, y :: ys => peq x y || pmem x ys
termination_by x m => 3 * (msize x + msizeL m) + 1
decreasing_by
  all_goals simp_wf
  all_goals simp [msize, msizeL]
  all_goals first
    | omega
    | (have hp := msize_pos y; omega)
end

/-- Models building a `frozenset` from an iterable: duplicates (under Python
`==`, i.e. `peq`) are dropped, keeping the first occurrence. -/
def pdedup : List Sentence → List Sentence
  | [] => []
  | x :: xs => x :: pdedup (xs.filter (fun y => !(peq x y)))
termination_by l => l.length
decreasing_by
  simp only [List.length_cons]
  exact Nat.lt_succ_of_le (List.length_filter_le _ _)

/-- Models the `And(formula1, *formulas)` constructor
(`AssociativeCommutativeBinaryOperator.__init__`): content becomes a
`frozenset`. -/
def mkAnd (l : List Sentence) : Sentence := .and (pdedup l)

/-- Models the `Or(formula1, *formulas)` constructor. -/
def mkOr (l : List Sentence) : Sentence := .or (pdedup l)

/-- The aligned-argument loop of `Function.unify`: equal terms need no
binding; if one side is a `Variable`, bind it to the other side; two unequal
non-variable contents fail.  This layer does not recurse into nested
`Function`s. -/
def unifyArgsF : List Term → List Term → Sub → Option Sub
  | s :: ss, o :: os, σ =>
    if s = o then unifyArgsF ss os σ
    else
      match s, o with
      | .var v, o => (insertSub σ v o).bind (unifyArgsF ss os)
      | s, .var w => (insertSub σ w s).bind (unifyArgsF ss os)
      | _, _ => none
  | _, _, σ => some σ

/-- Models `Function.unify(other)`: succeeds only for two `Function`s of
equal name and arity (the method is only reached with two `Function`s;
other combinations return the typed "no unifier" result). -/
def Term.unify : Term → Term → Option Sub
  | .func n1 a1, .func n2 a2 =>
    if n1 = n2 ∧ a1.length = a2.length then unifyArgsF a1 a2 [] else none
  | _, _ => none

/-- The aligned-argument loop of `Predicate.unify`: like `unifyArgsF`, but
two `Function` arguments are recursively unified via `Function.unify` and
the resulting substitution is merged (`substitution &= ...`), a merge that
fails on conflicting keys; a failed sub-unification is a failure of the
whole unification. -/
def unifyArgsP : List Term → List Term → Sub → Option Sub
  | s :: ss, o :: os, σ =>
    if s = o then unifyArgsP ss os σ
    else
      match s, o with
      | .var v, o => (insertSub σ v o).bind (unifyArgsP ss os)
      | s, .var w => (insertSub σ w s).bind (unifyArgsP ss os)
      | .func n1 a1, .func n2 a2 =>
        match Term.unify (.func n1 a1) (.func n2 a2) with
        | none => none
        | some τ => (mergeSub σ τ).bind (unifyArgsP ss os)
  | _, _, σ => some σ

/-- Models `Predicate.unify(other)` (`Not.unify` delegates to the inner
sentences; the remaining variants have no `unify` method). -/
def Sentence.unify : Sentence → Sentence → Option Sub
  | .pred n1 a1, .pred n2 a2 =>
    if n1 = n2 ∧ a1.length = a2.length then unifyArgsP a1 a2 [] else none
  | .not a, .not b => a.unify b
  | _, _ => none

/-- One argument of `Predicate.substitute`: a `Function` argument is
rewritten via `substituted` (keeping only the new term); a `Variable`
argument is replaced by `substitution[cont]`, the identity-on-miss
lookup. -/
def Predicate.substArg (σ : Sub) : Term → Term
  | .func n args => ((Term.func n args).substituted σ).1
  | .var v => applyV σ v

mutual
/-- Models `Sentence.substitute(subst)`: a structural rebuild through each
variant's constructor.  `Quantifier.substitute` raises a capture error
(`ValueError` in the code, `CaptureError` in the spec) before substituting
when the quantifier's own bound variable is a key of the substitution;
`none` models that exception propagating to the caller. -/
def Sentence.substitute : Sentence → Sub → Option Sentence
  | .pred n args, σ => some (.pred n (args.map (Predicate.substArg σ)))
  | .not s, σ => (s.substitute σ).map .not
  | .and l, σ => (Sentence.substituteL l σ).map mkAnd
  | .or l, σ => (Sentence.substituteL l σ).map mkOr
  | .implies a b, σ =>
    match a.substitute σ, b.substitute σ with
    | some a', some b' => some (.implies a' b')
    | _, _ => none
  | .iff a b, σ =>
    match a.substitute σ, b.substitute σ with
    | some a', some b' => some (.iff a' b')
    | _, _ => none
  | .forAll v b, σ =>
    if hasKey σ v then none else (b.substitute σ).map (.forAll v)
  | .exist v b, σ =>
    if hasKey σ v then none else (b.substitute σ).map (.exist v)

/-- Substitution into the operands of an `And`/`Or` (an exception from any
child propagates). -/
def Sentence.substituteL : List Sentence → Sub → Option (List Sentence)
  | [], _ => some []
  | s :: ss, σ =>
    match s.substitute σ, Sentence.substituteL ss σ with
    | some t, some ts => some (t :: ts)
    | _, _ => none
end

end Resolution

namespace Resolution

theorem lookupT_mem : ∀ {σ : Sub} {v : Variable} {t : Term}, lookupT σ v = some t → (v, t) ∈ σ := by
  intro σ
  induction σ with
  | nil => intro v t h; simp [lookupT] at h
  | cons p ps ih =>
    intro v t h
    obtain ⟨w, u⟩ := p
    simp only [lookupT] at h
    split at h
    · rename_i hw
      subst hw
      simp at h
      subst h
      exact List.mem_cons_self _ _
    · exact List.mem_cons_of_mem _ (ih h)

theorem lookupT_eq_none : ∀ {σ : Sub} {w : Variable}, (∀ p ∈ σ, p.1 ≠ w) → lookupT σ w = none := by
  intro σ
  induction σ with
  | nil => intro w _; rfl
  | cons p ps ih =>
    intro w h
    obtain ⟨v, u⟩ := p
    have hv : v ≠ w := h (v, u) (List.mem_cons_self _ _)
    simp only [lookupT, if_neg hv]
    exact ih (fun q hq => h q (List.mem_cons_of_mem _ hq))

/-- `σ₂` preserves every binding of `σ₁`. -/
def SubLe (σ1 σ2 : Sub) : Prop :=
  ∀ w u, lookupT σ1 w = some u → lookupT σ2 w = some u

theorem SubLe.rfl {σ : Sub} : SubLe σ σ := fun _ _ h => h

theorem SubLe.comp {σ1 σ2 σ3 : Sub} (h1 : SubLe σ1 σ2) (h2 : SubLe σ2 σ3) : SubLe σ1 σ3 :=
  fun w u h => h2 w u (h1 w u h)

theorem insertSub_le {σ σ' : Sub} {v : Variable} {t : Term}
    (h : insertSub σ v t = some σ') : SubLe σ σ' := by
  unfold insertSub at h
  split at h
  · split at h
    · simp at h; subst h; exact SubLe.rfl
    · simp at h
  · simp at h
    subst h
    intro w u hw
    rename_i hnone
    simp only [lookupT]
    split
    · rename_i hvw
      subst hvw
      rw [hw] at hnone
      simp at hnone
    · exact hw

theorem insertSub_lookup_self {σ σ' : Sub} {v : Variable} {t : Term}
    (h : insertSub σ v t = some σ') : lookupT σ' v = some t := by
  unfold insertSub at h
  split at h
  · split at h
    · simp at h
      subst h
      rename_i t' hsome heq
      rw [hsome, heq]
    · simp at h
  · simp at h
    subst h
    simp [lookupT]

theorem mergeSub_le : ∀ {τ σ σ' : Sub}, mergeSub σ τ = some σ' → SubLe σ σ' := by
  intro τ
  induction τ with
  | nil => intro σ σ' h; simp [mergeSub, List.foldlM] at h; subst h; exact SubLe.rfl
  | cons p ps ih =>
    intro σ σ' h
    simp only [mergeSub, List.foldlM_cons] at h
    cases hi : insertSub σ p.1 p.2 with
    | none => rw [hi] at h; simp at h
    | some σ1 =>
      rw [hi] at h
      simp at h
      exact SubLe.comp (insertSub_le hi) (ih h)

theorem mergeSub_lookup : ∀ {τ σ σ' : Sub}, mergeSub σ τ = some σ' →
    ∀ {w : Variable} {u : Term}, (w, u) ∈ τ → lookupT σ' w = some u := by
  intro τ
  induction τ with
  | nil => intro σ σ' _ w u hm; simp at hm
  | cons p ps ih =>
    intro σ σ' h w u hm
    simp only [mergeSub, List.foldlM_cons] at h
    cases hi : insertSub σ p.1 p.2 with
    | none => rw [hi] at h; simp at h
    | some σ1 =>
      rw [hi] at h
      simp at h
      rcases List.mem_cons.mp hm with h1 | h2
      · have hp : p = (w, u) := h1.symm
        subst hp
        exact mergeSub_le h w u (insertSub_lookup_self hi)
      · exact ih h h2


/-- A solved aligned pair at the `Function.unify` level: equal, or one side
a variable bound to the other side. -/
def solvedSimple (σ : Sub) (s o : Term) : Prop :=
  s = o ∨ (∃ v, s = .var v ∧ lookupT σ v = some o) ∨ (∃ w, o = .var w ∧ lookupT σ w = some s)

/-- A solved aligned pair at the `Predicate.unify` level: a simple solved
pair, or two functions of equal name whose aligned arguments are simple
solved pairs. -/
def solvedP (σ : Sub) (s o : Term) : Prop :=
  solvedSimple σ s o ∨
    (∃ n as os, s = .func n as ∧ o = .func n os ∧ List.Forall₂ (solvedSimple σ) as os)

theorem solvedSimple_mono {σ1 σ2 : Sub} (h : SubLe σ1 σ2) {s o : Term}
    (hs : solvedSimple σ1 s o) : solvedSimple σ2 s o := by
  rcases hs with h1 | ⟨v, hv, hl⟩ | ⟨w, hw, hl⟩
  · exact Or.inl h1
  · exact Or.inr (Or.inl ⟨v, hv, h v o hl⟩)
  · exact Or.inr (Or.inr ⟨w, hw, h w s hl⟩)

theorem solvedP_mono {σ1 σ2 : Sub} (h : SubLe σ1 σ2) {s o : Term}
    (hs : solvedP σ1 s o) : solvedP σ2 s o := by
  rcases hs with h1 | ⟨n, as, os, hs, ho, hf⟩
  · exact Or.inl (solvedSimple_mono h h1)
  · exact Or.inr ⟨n, as, os, hs, ho, hf.imp (fun _ _ ha => solvedSimple_mono h ha)⟩

theorem unifyArgsF_cons (s o : Term) (ts os : List Term) (σ : Sub) :
    unifyArgsF (s :: ts) (o :: os) σ =
      (if s = o then unifyArgsF ts os σ
       else
         match s, o with
         | .var v, o => (insertSub σ v o).bind (unifyArgsF ts os)
         | s, .var w => (insertSub σ w s).bind (unifyArgsF ts os)
         | _, _ => none) := rfl

theorem unifyArgsF_var (v : Variable) (o : Term) (ts os : List Term) (σ : Sub)
    (hne : Term.var v ≠ o) :
    unifyArgsF (.var v :: ts) (o :: os) σ = (insertSub σ v o).bind (unifyArgsF ts os) := by
  rw [unifyArgsF_cons, if_neg hne]
  cases o <;> rfl

theorem unifyArgsF_fv (n : String) (as : List Term) (w : Variable) (ts os : List Term) (σ : Sub)
    (hne : Term.func n as ≠ .var w) :
    unifyArgsF (.func n as :: ts) (.var w :: os) σ =
      (insertSub σ w (.func n as)).bind (unifyArgsF ts os) := by
  rw [unifyArgsF_cons, if_neg hne]

theorem unifyArgsF_ff (n : String) (as : List Term) (m : String) (bs : List Term)
    (ts os : List Term) (σ : Sub) (hne : Term.func n as ≠ .func m bs) :
    unifyArgsF (.func n as :: ts) (.func m bs :: os) σ = none := by
  rw [unifyArgsF_cons, if_neg hne]

theorem unifyArgsP_cons (s o : Term) (ts os : List Term) (σ : Sub) :
    unifyArgsP (s :: ts) (o :: os) σ =
      (if s = o then unifyArgsP ts os σ
       else
         match s, o with
         | .var v, o => (insertSub σ v o).bind (unifyArgsP ts os)
         | s, .var w => (insertSub σ w s).bind (unifyArgsP ts os)
         | .func n1 a1, .func n2 a2 =>
           match Term.unify (.func n1 a1) (.func n2 a2) with
           | none => none
           | some τ => (mergeSub σ τ).bind (unifyArgsP ts os)) := rfl

theorem unifyArgsP_var (v : Variable) (o : Term) (ts os : List Term) (σ : Sub)
    (hne : Term.var v ≠ o) :
    unifyArgsP (.var v :: ts) (o :: os) σ = (insertSub σ v o).bind (unifyArgsP ts os) := by
  rw [unifyArgsP_cons, if_neg hne]
  cases o <;> rfl

theorem unifyArgsP_fv (n : String) (as : List Term) (w : Variable) (ts os : List Term) (σ : Sub)
    (hne : Term.func n as ≠ .var w) :
    unifyArgsP (.func n as :: ts) (.var w :: os) σ =
      (insertSub σ w (.func n as)).bind (unifyArgsP ts os) := by
  rw [unifyArgsP_cons, if_neg hne]

theorem unifyArgsP_ff (n : String) (as : List Term) (m : String) (bs : List Term)
    (ts os : List Term) (σ : Sub) (hne : Term.func n as ≠ .func m bs) :
    unifyArgsP (.func n as :: ts) (.func m bs :: os) σ =
      (match Term.unify (.func n as) (.func m bs) with
       | none => none
       | some τ => (mergeSub σ τ).bind (unifyArgsP ts os)) := by
  rw [unifyArgsP_cons, if_neg hne]

theorem unifyArgsF_le : ∀ {ss os : List Term} {σ σ' : Sub},
    unifyArgsF ss os σ = some σ' → SubLe σ σ' := by
  intro ss
  induction ss with
  | nil => intro os σ σ' h; simp [unifyArgsF] at h; subst h; exact SubLe.rfl
  | cons s ts ih =>
    intro os σ σ' h
    cases os with
    | nil => simp [unifyArgsF] at h; subst h; exact SubLe.rfl
    | cons o os =>
      by_cases hso : s = o
      · rw [unifyArgsF_cons, if_pos hso] at h
        exact ih h
      · cases s with
        | var v =>
          rw [unifyArgsF_var v o ts os σ hso] at h
          cases hi : insertSub σ v o with
          | none => rw [hi] at h; simp at h
          | some σ1 => rw [hi] at h; simp at h; exact SubLe.comp (insertSub_le hi) (ih h)
        | func n as =>
          cases o with
          | var w =>
            rw [unifyArgsF_fv n as w ts os σ hso] at h
            cases hi : insertSub σ w (.func n as) with
            | none => rw [hi] at h; simp at h
            | some σ1 => rw [hi] at h; simp at h; exact SubLe.comp (insertSub_le hi) (ih h)
          | func m bs =>
            rw [unifyArgsF_ff n as m bs ts os σ hso] at h
            simp at h

theorem unifyArgsP_le : ∀ {ss os : List Term} {σ σ' : Sub},
    unifyArgsP ss os σ = some σ' → SubLe σ σ' := by
  intro ss
  induction ss with
  | nil => intro os σ σ' h; simp [unifyArgsP] at h; subst h; exact SubLe.rfl
  | cons s ts ih =>
    intro os σ σ' h
    cases os with
    | nil => simp [unifyArgsP] at h; subst h; exact SubLe.rfl
    | cons o os =>
      by_cases hso : s = o
      · rw [unifyArgsP_cons, if_pos hso] at h
        exact ih h
      · cases s with
        | var v =>
          rw [unifyArgsP_var v o ts os σ hso] at h
          cases hi : insertSub σ v o with
          | none => rw [hi] at h; simp at h
          | some σ1 => rw [hi] at h; simp at h; exact SubLe.comp (insertSub_le hi) (ih h)
        | func n as =>
          cases o with
          | var w =>
            rw [unifyArgsP_fv n as w ts os σ hso] at h
            cases hi : insertSub σ w (.func n as) with
            | none => rw [hi] at h; simp at h
            | some σ1 => rw [hi] at h; simp at h; exact SubLe.comp (insertSub_le hi) (ih h)
          | func m bs =>
            rw [unifyArgsP_ff n as m bs ts os σ hso] at h
            cases hu : Term.unify (.func n as) (.func m bs) with
            | none => rw [hu] at h; simp at h
            | some τ =>
              rw [hu] at h
              simp at h
              cases hm : mergeSub σ τ with
              | none => rw [hm] at h; simp at h
              | some σ1 => rw [hm] at h; simp at h; exact SubLe.comp (mergeSub_le hm) (ih h)

theorem unifyArgsF_solved : ∀ {ss os : List Term} {σ σ' : Sub},
    ss.length = os.length → unifyArgsF ss os σ = some σ' →
    List.Forall₂ (solvedSimple σ') ss os := by
  intro ss
  induction ss with
  | nil =>
    intro os σ σ' hlen _
    cases os with
    | nil => exact List.Forall₂.nil
    | cons o os => simp at hlen
  | cons s ts ih =>
    intro os σ σ' hlen h
    cases os with
    | nil => simp at hlen
    | cons o os =>
      simp at hlen
      by_cases hso : s = o
      · rw [unifyArgsF_cons, if_pos hso] at h
        exact List.Forall₂.cons (Or.inl hso) (ih hlen h)
      · cases s with
        | var v =>
          rw [unifyArgsF_var v o ts os σ hso] at h
          cases hi : insertSub σ v o with
          | none => rw [hi] at h; simp at h
          | some σ1 =>
            rw [hi] at h
            simp at h
            refine List.Forall₂.cons (Or.inr (Or.inl ⟨v, Eq.refl _, ?_⟩)) (ih hlen h)
            exact unifyArgsF_le h v o (insertSub_lookup_self hi)
        | func n as =>
          cases o with
          | var w =>
            rw [unifyArgsF_fv n as w ts os σ hso] at h
            cases hi : insertSub σ w (.func n as) with
            | none => rw [hi] at h; simp at h
            | some σ1 =>
              rw [hi] at h
              simp at h
              refine List.Forall₂.cons (Or.inr (Or.inr ⟨w, Eq.refl _, ?_⟩)) (ih hlen h)
              exact unifyArgsF_le h w (.func n as) (insertSub_lookup_self hi)
          | func m bs =>
            rw [unifyArgsF_ff n as m bs ts os σ hso] at h
            simp at h

theorem term_unify_solved {t1 t2 : Term} {σ : Sub} (h : Term.unify t1 t2 = some σ) :
    ∃ n a1 a2, t1 = .func n a1 ∧ t2 = .func n a2 ∧
      List.Forall₂ (solvedSimple σ) a1 a2 := by
  cases t1 with
  | var v => simp [Term.unify] at h
  | func n1 a1 =>
    cases t2 with
    | var w => simp [Term.unify] at h
    | func n2 a2 =>
      rw [Term.unify] at h
      split at h
      · rename_i hg
        exact ⟨n1, a1, a2, Eq.refl _, by rw [hg.1], unifyArgsF_solved hg.2 h⟩
      · simp at h

theorem unifyArgsP_solved : ∀ {ss os : List Term} {σ σ' : Sub},
    ss.length = os.length → unifyArgsP ss os σ = some σ' →
    List.Forall₂ (solvedP σ') ss os := by
  intro ss
  induction ss with
  | nil =>
    intro os σ σ' hlen _
    cases os with
    | nil => exact List.Forall₂.nil
    | cons o os => simp at hlen
  | cons s ts ih =>
    intro os σ σ' hlen h
    cases os with
    | nil => simp at hlen
    | cons o os =>
      simp at hlen
      by_cases hso : s = o
      · rw [unifyArgsP_cons, if_pos hso] at h
        exact List.Forall₂.cons (Or.inl (Or.inl hso)) (ih hlen h)
      · cases s with
        | var v =>
          rw [unifyArgsP_var v o ts os σ hso] at h
          cases hi : insertSub σ v o with
          | none => rw [hi] at h; simp at h
          | some σ1 =>
            rw [hi] at h
            simp at h
            refine List.Forall₂.cons (Or.inl (Or.inr (Or.inl ⟨v, Eq.refl _, ?_⟩))) (ih hlen h)
            exact unifyArgsP_le h v o (insertSub_lookup_self hi)
        | func n as =>
          cases o with
          | var w =>
            rw [unifyArgsP_fv n as w ts os σ hso] at h
            cases hi : insertSub σ w (.func n as) with
            | none => rw [hi] at h; simp at h
            | some σ1 =>
              rw [hi] at h
              simp at h
              refine List.Forall₂.cons (Or.inl (Or.inr (Or.inr ⟨w, Eq.refl _, ?_⟩))) (ih hlen h)
              exact unifyArgsP_le h w (.func n as) (insertSub_lookup_self hi)
          | func m bs =>
            rw [unifyArgsP_ff n as m bs ts os σ hso] at h
            cases hu : Term.unify (.func n as) (.func m bs) with
            | none => rw [hu] at h; simp at h
            | some τ =>
              rw [hu] at h
              simp at h
              cases hm : mergeSub σ τ with
              | none => rw [hm] at h; simp at h
              | some σ1 =>
                rw [hm] at h
                simp at h
                refine List.Forall₂.cons ?_ (ih hlen h)
                obtain ⟨nn, xs, ys, h1, h2, hf⟩ := term_unify_solved hu
                obtain ⟨hn1, ha1⟩ := Term.func.inj h1
                obtain ⟨hn2, ha2⟩ := Term.func.inj h2
                have step : ∀ x y, solvedSimple τ x y → solvedSimple σ1 x y := by
                  intro x y hs
                  rcases hs with hxy | ⟨a, hv, hl⟩ | ⟨b, hw, hl⟩
                  · exact Or.inl hxy
                  · exact Or.inr (Or.inl ⟨a, hv, mergeSub_lookup hm (lookupT_mem hl)⟩)
                  · exact Or.inr (Or.inr ⟨b, hw, mergeSub_lookup hm (lookupT_mem hl)⟩)
                refine Or.inr ⟨n, as, bs, Eq.refl _, ?_, ?_⟩
                · rw [hn2.trans hn1.symm]
                · subst ha1
                  subst ha2
                  exact (hf.imp (fun _ _ hs => step _ _ hs)).imp
                    (fun _ _ hs => solvedSimple_mono (unifyArgsP_le h) hs)

/-- An idempotent substitution: no key occurs in any term of the range
(applying it twice is the same as applying it once). -/
def idem (σ : Sub) : Bool :=
  σ.all (fun p => σ.all (fun q => !(occursV q.1 p.2)))

theorem idem_no_key_occurs {σ : Sub} (h : idem σ = true) {v : Variable} {t : Term}
    (hm : (v, t) ∈ σ) {w : Variable} {u : Term} (hw : (w, u) ∈ σ) :
    occursV w t = false := by
  have h1 := List.all_eq_true.mp h (v, t) hm
  have h2 := List.all_eq_true.mp h1 (w, u) hw
  simpa using h2

mutual
/-- A term in which no key of `σ` occurs is unchanged by `substituted`. -/
theorem substituted_fixed (t : Term) (σ : Sub)
    (h : ∀ p ∈ σ, occursV p.1 t = false) : (Term.substituted t σ).1 = t :=
  match t with
  | .var w => by
    have hn : lookupT σ w = none := by
      refine lookupT_eq_none (fun p hp => ?_)
      have := h p hp
      simp [occursV] at this
      exact fun hc => this (hc ▸ rfl)
    simp [Term.substituted, hn]
  | .func n args => by
    have hl : (Term.substitutedL args σ).1 = args := by
      refine substitutedL_fixed args σ (fun p hp => ?_)
      have := h p hp
      simpa [occursV] using this
    simp [Term.substituted, hl]

/-- List version of `substituted_fixed`. -/
theorem substitutedL_fixed (ts : List Term) (σ : Sub)
    (h : ∀ p ∈ σ, occursVL p.1 ts = false) : (Term.substitutedL ts σ).1 = ts :=
  match ts with
  | [] => rfl
  | t :: rest => by
    have h1 : (Term.substituted t σ).1 = t := by
      refine substituted_fixed t σ (fun p hp => ?_)
      have := h p hp
      simp [occursVL] at this
      exact this.1
    have h2 : (Term.substitutedL rest σ).1 = rest := by
      refine substitutedL_fixed rest σ (fun p hp => ?_)
      have := h p hp
      simp [occursVL] at this
      exact this.2
    simp [Term.substitutedL, h1, h2]
end

theorem substitutedL_fst (ts : List Term) (σ : Sub) :
    (Term.substitutedL ts σ).1 = ts.map (fun t => (Term.substituted t σ).1) := by
  induction ts with
  | nil => rfl
  | cons t rest ih => simp [Term.substitutedL, ih]

/-- `Predicate.substitute`'s per-argument action agrees with
`Function.substituted` on every term shape. -/
theorem substArg_eq (σ : Sub) (t : Term) :
    Predicate.substArg σ t = (Term.substituted t σ).1 := by
  cases t with
  | var v =>
    simp only [Predicate.substArg, applyV, Term.substituted]
    cases h : lookupT σ v <;> simp
  | func n args => rfl

theorem solvedSimple_subst_eq {σ : Sub} (hid : idem σ = true) {s o : Term}
    (h : solvedSimple σ s o) :
    (Term.substituted s σ).1 = (Term.substituted o σ).1 := by
  rcases h with hso | ⟨v, hv, hl⟩ | ⟨w, hw, hl⟩
  · rw [hso]
  · subst hv
    have h1 : (Term.substituted (Term.var v) σ).1 = o := by
      simp [Term.substituted, hl]
    have h2 : (Term.substituted o σ).1 = o := by
      refine substituted_fixed o σ (fun p hp => ?_)
      exact idem_no_key_occurs hid (lookupT_mem hl) hp
    rw [h1, h2]
  · subst hw
    have h1 : (Term.substituted (Term.var w) σ).1 = s := by
      simp [Term.substituted, hl]
    have h2 : (Term.substituted s σ).1 = s := by
      refine substituted_fixed s σ (fun p hp => ?_)
      exact idem_no_key_occurs hid (lookupT_mem hl) hp
    rw [h1, h2]

theorem solvedP_subst_eq {σ : Sub} (hid : idem σ = true) {s o : Term}
    (h : solvedP σ s o) :
    (Term.substituted s σ).1 = (Term.substituted o σ).1 := by
  rcases h with hs | ⟨n, as, os, h1, h2, hf⟩
  · exact solvedSimple_subst_eq hid hs
  · subst h1
    subst h2
    simp only [Term.substituted, substitutedL_fst]
    congr 1
    induction hf with
    | nil => rfl
    | cons hp _ ihm => simp [solvedSimple_subst_eq hid hp, ihm]

/-- Pointwise-related lists map equally under a relation-respecting
function. -/
theorem forall2_map_eq {R : Term → Term → Prop} (f g : Term → Term)
    (hfg : ∀ a b, R a b → f a = g b) :
    ∀ {as os : List Term}, List.Forall₂ R as os → as.map f = os.map g := by
  intro as os h
  induction h with
  | nil => rfl
  | cons hp _ ihm => simp only [List.map_cons, ihm, hfg _ _ hp]

/-- The variable used by the concrete counterexamples. -/
def xV : Variable := ⟨0, "x"⟩

/-- C1, counterexample: `unify` has no occurs check, so
`Predicate("P", x).unify(Predicate("P", Function("f", x)))` returns the
substitution `{x ↦ f(x)}`, yet applying it to both sides gives
`P(f(x))` and `P(f(f(x)))`, which are not equal. -/
theorem unify_not_sound_counterexample :
    Sentence.unify (.pred "P" [.var xV]) (.pred "P" [.func "f" [.var xV]]) =
      some [(xV, .func "f" [.var xV])] ∧
    Sentence.substitute (.pred "P" [.var xV]) [(xV, .func "f" [.var xV])] =
      some (.pred "P" [.func "f" [.var xV]]) ∧
    Sentence.substitute (.pred "P" [.func "f" [.var xV]]) [(xV, .func "f" [.var xV])] =
      some (.pred "P" [.func "f" [.func "f" [.var xV]]]) ∧
    (Term.func "f" [.var xV] : Term) ≠ .func "f" [.func "f" [.var xV]] := by
  refine ⟨rfl, rfl, rfl, by decide⟩

/-- C1 (amended): unification is sound for every pair on which `unify` is
defined whenever the returned substitution is idempotent (no key occurs in
a range term): applying it once to both sides then makes them equal.  The
original claim fails without the idempotence condition because `unify`
performs no occurs check. -/
theorem unify_sound_of_idem :
    (∀ (n1 n2 : String) (a1 a2 : List Term) (σ : Sub),
      Sentence.unify (.pred n1 a1) (.pred n2 a2) = some σ → idem σ = true →
      Sentence.substitute (.pred n1 a1) σ = Sentence.substitute (.pred n2 a2) σ) ∧
    (∀ (t1 t2 : Term) (σ : Sub),
      Term.unify t1 t2 = some σ → idem σ = true →
      (t1.substituted σ).1 = (t2.substituted σ).1) := by
  constructor
  · intro n1 n2 a1 a2 σ hu hid
    rw [Sentence.unify] at hu
    split at hu
    · rename_i hg
      have hf : List.Forall₂ (solvedP σ) a1 a2 := unifyArgsP_solved hg.2 hu
      simp only [Sentence.substitute, hg.1]
      have hmap := forall2_map_eq (Predicate.substArg σ) (Predicate.substArg σ)
        (fun a b hab => by
          rw [substArg_eq, substArg_eq]; exact solvedP_subst_eq hid hab) hf
      rw [hmap]
    · simp at hu
  · intro t1 t2 σ hu hid
    obtain ⟨n, b1, b2, h1, h2, hf⟩ := term_unify_solved hu
    subst h1
    subst h2
    simp only [Term.substituted, substitutedL_fst]
    have hmap := forall2_map_eq (fun t => (Term.substituted t σ).1)
      (fun t => (Term.substituted t σ).1)
      (fun a b hab => solvedSimple_subst_eq hid hab) hf
    rw [hmap]

/-- Witness for `unify_sound_of_idem` at a concrete input:
`P(x)` against `P(a)` unifies to the idempotent `{x ↦ a}` and both sides
substitute to `P(a)`. -/
theorem unify_sound_of_idem_witness :
    Sentence.unify (.pred "P" [.var xV]) (.pred "P" [.func "a" []]) =
      some [(xV, .func "a" [])] ∧
    idem [(xV, .func "a" [])] = true ∧
    Sentence.substitute (.pred "P" [.var xV]) [(xV, .func "a" [])] =
      Sentence.substitute (.pred "P" [.func "a" []]) [(xV, .func "a" [])] :=
  ⟨rfl, rfl, unify_sound_of_idem.1 "P" "P" [.var xV] [.func "a" []] [(xV, .func "a" [])] rfl rfl⟩

mutual
/-- Weighted sentence size: like `msize` but `IFF` weighs one extra, so that
the `Implies` sentences built by `IFF.simplified` are smaller than the
`IFF` itself (the termination measure of `simplified`). -/
def wsize : Sentence → Nat
  | .pred _ _ => 1
  | .not s => 1 + wsize s
  | .and l => 1 + wsizeL l
  | .or l => 1 + wsizeL l
  | .implies a b => 1 + wsize a + wsize b
  | .iff a b => 2 + wsize a + wsize b
  | .forAll _ b => 1 + wsize b
  | .exist _ b => 1 + wsize b

/-- Total weighted size of a list of sentences. -/
def wsizeL : List Sentence → Nat
  | [] => 0
  | s :: ss => wsize s + wsizeL ss
end

theorem wsize_pos : ∀ S, 0 < wsize S := by
  intro S; cases S <;> simp [wsize]

mutual
/-- Models `Sentence.simplified()`: rewrites to a logically equivalent
sentence using only `And`, `Or`, `Not`, quantifiers and `Predicate`:
`IFF(A,B) → And(Implies(A,B).simplified(), Implies(B,A).simplified())`,
`Implies(A,B) → Or(Not(A.simplified()), B.simplified())`, and every other
variant recurses into its children and rebuilds itself through its
constructor. -/
def Sentence.simplified : Sentence → Sentence
  | .pred n args => .pred n args
  | .not s => .not s.simplified
  | .and l => mkAnd (Sentence.simplifiedL l)
  | .or l => mkOr (Sentence.simplifiedL l)
  | .implies a b => mkOr [.not a.simplified, b.simplified]
  | .iff a b => mkAnd [(Sentence.implies a b).simplified, (Sentence.implies b a).simplified]
  | .forAll v b => .forAll v b.simplified
  | .exist v b => .exist v b.simplified
termination_by S => 3 * wsize S
decreasing_by
  all_goals simp [wsize, wsizeL]
  all_goals omega

/-- `simplified` mapped over `And`/`Or` content. -/
def Sentence.simplifiedL : List Sentence → List Sentence
  | [] => []
  | s :: ss => s.simplified :: Sentence.simplifiedL ss
termination_by l => 3 * wsizeL l + 1
decreasing_by
  all_goals simp [wsize, wsizeL]
  all_goals first
    | omega
    | (have hp := wsize_pos s; omega)
end

theorem simplified_pred (n : String) (args : List Term) :
    (Sentence.pred n args).simplified = .pred n args := by
  simp only [Sentence.simplified]

theorem simplified_not (s : Sentence) : s.not.simplified = .not s.simplified := by
  simp only [Sentence.simplified]

theorem simplified_and (l : List Sentence) :
    (Sentence.and l).simplified = mkAnd (Sentence.simplifiedL l) := by
  simp only [Sentence.simplified]

theorem simplified_or (l : List Sentence) :
    (Sentence.or l).simplified = mkOr (Sentence.simplifiedL l) := by
  simp only [Sentence.simplified]

theorem simplified_implies (a b : Sentence) :
    (Sentence.implies a b).simplified = mkOr [.not a.simplified, b.simplified] := by
  simp only [Sentence.simplified]

theorem simplified_iff_eq (a b : Sentence) :
    (Sentence.iff a b).simplified =
      mkAnd [(Sentence.implies a b).simplified, (Sentence.implies b a).simplified] := by
  simp only [Sentence.simplified]

theorem simplified_forAll (v : Variable) (b : Sentence) :
    (Sentence.forAll v b).simplified = .forAll v b.simplified := by
  simp only [Sentence.simplified]

theorem simplified_exist (v : Variable) (b : Sentence) :
    (Sentence.exist v b).simplified = .exist v b.simplified := by
  simp only [Sentence.simplified]

theorem simplifiedL_nil : Sentence.simplifiedL [] = [] := by
  simp only [Sentence.simplifiedL]

theorem simplifiedL_cons (s : Sentence) (ss : List Sentence) :
    Sentence.simplifiedL (s :: ss) = s.simplified :: Sentence.simplifiedL ss := by
  simp only [Sentence.simplifiedL]

mutual
/-- The sentence contains no `Implies` and no `IFF` node. -/
def noImpliesIff : Sentence → Bool
  | .pred _ _ => true
  | .not s => noImpliesIff s
  | .and l => noImpliesIffL l
  | .or l => noImpliesIffL l
  | .implies _ _ => false
  | .iff _ _ => false
  | .forAll _ b => noImpliesIff b
  | .exist _ b => noImpliesIff b

/-- List version of `noImpliesIff`. -/
def noImpliesIffL : List Sentence → Bool
  | [] => true
  | s :: ss => noImpliesIff s && noImpliesIffL ss
end

theorem noImpliesIffL_iff : ∀ {l : List Sentence},
    noImpliesIffL l = true ↔ ∀ x ∈ l, noImpliesIff x = true := by
  intro l
  induction l with
  | nil => simp [noImpliesIffL]
  | cons s ss ih => simp [noImpliesIffL, ih]

theorem mem_of_mem_pdedup : (l : List Sentence) → ∀ x, x ∈ pdedup l → x ∈ l
  | [] => by simp [pdedup]
  | y :: ys => by
    intro x hx
    rw [pdedup] at hx
    rcases List.mem_cons.mp hx with h | h
    · exact h ▸ List.mem_cons_self _ _
    · have := mem_of_mem_pdedup (ys.filter (fun z => !(peq y z))) x h
      exact List.mem_cons_of_mem _ (List.mem_of_mem_filter this)
termination_by l => l.length
decreasing_by
  simp only [List.length_cons]
  exact Nat.lt_succ_of_le (List.length_filter_le _ _)

/-- Strong induction on an arbitrary natural measure. -/
theorem measureInd {α : Type} (f : α → Nat) (motive : α → Prop)
    (h : ∀ a, (∀ b, f b < f a → motive b) → motive a) : ∀ a, motive a := by
  suffices h2 : ∀ n a, f a < n → motive a by
    intro a
    exact h2 (f a + 1) a (Nat.lt_succ_self _)
  intro n
  induction n with
  | zero => intro a ha; omega
  | succ n ih =>
    intro a ha
    exact h a (fun b hb => ih b (by omega))

theorem mem_simplifiedL : ∀ {l : List Sentence} {x : Sentence},
    x ∈ Sentence.simplifiedL l → ∃ y ∈ l, x = y.simplified := by
  intro l
  induction l with
  | nil => intro x hx; rw [simplifiedL_nil] at hx; cases hx
  | cons s ss ih =>
    intro x hx
    rw [simplifiedL_cons] at hx
    rcases List.mem_cons.mp hx with h | h
    · exact ⟨s, List.mem_cons_self _ _, h⟩
    · obtain ⟨y, hy, hxy⟩ := ih h
      exact ⟨y, List.mem_cons_of_mem _ hy, hxy⟩

theorem wsize_le_of_mem {x : Sentence} : ∀ {l : List Sentence}, x ∈ l → wsize x ≤ wsizeL l := by
  intro l h
  induction l with
  | nil => cases h
  | cons y ys ih =>
    rcases List.mem_cons.mp h with h1 | h2
    · subst h1; simp [wsizeL]
    · calc wsize x ≤ wsizeL ys := ih h2
        _ ≤ wsizeL (y :: ys) := by simp [wsizeL]

/-- C2: for every sentence, `simplified()` returns a sentence containing no
`Implies` node and no `IFF` node. -/
theorem simplified_no_implies_iff : ∀ S : Sentence, noImpliesIff S.simplified = true := by
  refine measureInd wsize _ (fun S ih => ?_)
  cases S with
  | pred n args => simp [simplified_pred, noImpliesIff]
  | not s =>
    rw [simplified_not]
    simp only [noImpliesIff]
    exact ih s (by simp [wsize])
  | and l =>
    rw [simplified_and]
    simp only [mkAnd, noImpliesIff]
    refine noImpliesIffL_iff.mpr (fun x hx => ?_)
    obtain ⟨y, hy, hxy⟩ := mem_simplifiedL (mem_of_mem_pdedup _ x hx)
    subst hxy
    refine ih y ?_
    have := wsize_le_of_mem hy
    simp only [wsize]
    omega
  | or l =>
    rw [simplified_or]
    simp only [mkOr, noImpliesIff]
    refine noImpliesIffL_iff.mpr (fun x hx => ?_)
    obtain ⟨y, hy, hxy⟩ := mem_simplifiedL (mem_of_mem_pdedup _ x hx)
    subst hxy
    refine ih y ?_
    have := wsize_le_of_mem hy
    simp only [wsize]
    omega
  | implies a b =>
    rw [simplified_implies]
    simp only [mkOr, noImpliesIff]
    refine noImpliesIffL_iff.mpr (fun x hx => ?_)
    have hx2 := mem_of_mem_pdedup _ x hx
    rcases List.mem_cons.mp hx2 with h | h
    · subst h
      simp only [noImpliesIff]
      exact ih a (by simp only [wsize]; omega)
    · rcases List.mem_cons.mp h with h2 | h2
      · subst h2
        exact ih b (by simp only [wsize]; omega)
      · simp at h2
  | iff a b =>
    rw [simplified_iff_eq]
    simp only [mkAnd, noImpliesIff]
    refine noImpliesIffL_iff.mpr (fun x hx => ?_)
    have hx2 := mem_of_mem_pdedup _ x hx
    rcases List.mem_cons.mp hx2 with h | h
    · subst h
      exact ih (.implies a b) (by simp only [wsize]; omega)
    · rcases List.mem_cons.mp h with h2 | h2
      · subst h2
        exact ih (.implies b a) (by simp only [wsize]; omega)
      · simp at h2
  | forAll v b =>
    rw [simplified_forAll]
    simp only [noImpliesIff]
    exact ih b (by simp [wsize])
  | exist v b =>
    rw [simplified_exist]
    simp only [noImpliesIff]
    exact ih b (by simp [wsize])

mutual
/-- Models `negated_inwards(negate=False)`: pushes `Not` towards the leaves
by De Morgan duality.  A `Predicate` is the base case (`Not(copy)` when
negated, plain copy otherwise); `Not` flips the flag; `And`/`Or` and
`ForAll`/`Exists` recurse, swapping to their dual when negated.  `Implies`
and `IFF` have no `negated_inwards` method (`AttributeError` in Python,
modelled by `none`). -/
def Sentence.negated_inwards : Sentence → Bool → Option Sentence
  | .pred n args, negate => some (if negate then .not (.pred n args) else .pred n args)
  | .not s, negate => s.negated_inwards (!negate)
  | .and l, negate =>
    (Sentence.negated_inwardsL l negate).map (fun m => if negate then mkOr m else mkAnd m)
  | .or l, negate =>
    (Sentence.negated_inwardsL l negate).map (fun m => if negate then mkAnd m else mkOr m)
  | .implies _ _, _ => none
  | .iff _ _, _ => none
  | .forAll v b, negate =>
    (b.negated_inwards negate).map (fun c => if negate then .exist v c else .forAll v c)
  | .exist v b, negate =>
    (b.negated_inwards negate).map (fun c => if negate then .forAll v c else .exist v c)

/-- `negated_inwards` over `And`/`Or` content (an error from any child
propagates). -/
def Sentence.negated_inwardsL : List Sentence → Bool → Option (List Sentence)
  | [], _ => some []
  | s :: ss, negate =>
    match s.negated_inwards negate, Sentence.negated_inwardsL ss negate with
    | some t, some ts => some (t :: ts)
    | _, _ => none
end

mutual
/-- Every `Not` node in the sentence directly wraps a `Predicate`. -/
def notWrapsPred : Sentence → Bool
  | .pred _ _ => true
  | .not (.pred _ _) => true
  | .not _ => false
  | .and l => notWrapsPredL l
  | .or l => notWrapsPredL l
  | .implies a b => notWrapsPred a && notWrapsPred b
  | .iff a b => notWrapsPred a && notWrapsPred b
  | .forAll _ b => notWrapsPred b
  | .exist _ b => notWrapsPred b

/-- List version of `notWrapsPred`. -/
def notWrapsPredL : List Sentence → Bool
  | [] => true
  | s :: ss => notWrapsPred s && notWrapsPredL ss
end

/-- The property `p` holds of the value inside a present option (a raised
exception — `none` — never satisfies it). -/
def optHolds (p : Sentence → Bool) : Option Sentence → Bool
  | none => false
  | some s => p s

theorem notWrapsPredL_iff : ∀ {l : List Sentence},
    notWrapsPredL l = true ↔ ∀ x ∈ l, notWrapsPred x = true := by
  intro l
  induction l with
  | nil => simp [notWrapsPredL]
  | cons s ss ih => simp [notWrapsPredL, ih]

theorem negated_inwardsL_ok {l : List Sentence}
    (h : ∀ y ∈ l, ∀ neg : Bool, optHolds notWrapsPred (y.negated_inwards neg) = true)
    (negate : Bool) :
    ∃ m, Sentence.negated_inwardsL l negate = some m ∧ ∀ x ∈ m, notWrapsPred x = true := by
  induction l with
  | nil => exact ⟨[], rfl, by simp⟩
  | cons s ss ih =>
    have hs := h s (List.mem_cons_self _ _) negate
    obtain ⟨m, hm, hmp⟩ := ih (fun y hy => h y (List.mem_cons_of_mem _ hy))
    cases ht : s.negated_inwards negate with
    | none => rw [ht] at hs; simp [optHolds] at hs
    | some t =>
      rw [ht] at hs
      simp only [optHolds] at hs
      refine ⟨t :: m, ?_, ?_⟩
      · rw [Sentence.negated_inwardsL, ht, hm]
      · intro x hx
        rcases List.mem_cons.mp hx with h1 | h1
        · exact h1 ▸ hs
        · exact hmp x h1

/-- C3, generalised over the `negate` flag. -/
theorem negated_inwards_notWrapsPred :
    ∀ S : Sentence, noImpliesIff S = true →
    ∀ negate : Bool, optHolds notWrapsPred (S.negated_inwards negate) = true := by
  refine measureInd msize
    (fun S => noImpliesIff S = true →
      ∀ negate : Bool, optHolds notWrapsPred (S.negated_inwards negate) = true)
    (fun S ih => ?_)
  intro hno negate
  cases S with
  | pred n args =>
    cases negate <;> simp [Sentence.negated_inwards, optHolds, notWrapsPred]
  | not s =>
    simp only [noImpliesIff] at hno
    simp only [Sentence.negated_inwards]
    exact ih s (by simp [msize]) hno (!negate)
  | and l =>
    simp only [noImpliesIff] at hno
    have hall : ∀ y ∈ l, ∀ neg : Bool, optHolds notWrapsPred (y.negated_inwards neg) = true := by
      intro y hy neg
      refine ih y ?_ (noImpliesIffL_iff.mp hno y hy) neg
      have := msize_le_of_mem hy
      simp only [msize]
      omega
    obtain ⟨m, hm, hmp⟩ := negated_inwardsL_ok hall negate
    simp only [Sentence.negated_inwards, hm, Option.map_some]
    cases negate <;>
      simp only [optHolds, if_true, if_false, mkAnd, mkOr, notWrapsPred, Bool.false_eq_true] <;>
      exact notWrapsPredL_iff.mpr (fun x hx => hmp x (mem_of_mem_pdedup _ x hx))
  | or l =>
    simp only [noImpliesIff] at hno
    have hall : ∀ y ∈ l, ∀ neg : Bool, optHolds notWrapsPred (y.negated_inwards neg) = true := by
      intro y hy neg
      refine ih y ?_ (noImpliesIffL_iff.mp hno y hy) neg
      have := msize_le_of_mem hy
      simp only [msize]
      omega
    obtain ⟨m, hm, hmp⟩ := negated_inwardsL_ok hall negate
    simp only [Sentence.negated_inwards, hm, Option.map_some]
    cases negate <;>
      simp only [optHolds, if_true, if_false, mkAnd, mkOr, notWrapsPred, Bool.false_eq_true] <;>
      exact notWrapsPredL_iff.mpr (fun x hx => hmp x (mem_of_mem_pdedup _ x hx))
  | implies a b => simp [noImpliesIff] at hno
  | iff a b => simp [noImpliesIff] at hno
  | forAll v b =>
    simp only [noImpliesIff] at hno
    have hb := ih b (by simp [msize]) hno negate
    cases hc : b.negated_inwards negate with
    | none => rw [hc] at hb; simp [optHolds] at hb
    | some c =>
      rw [hc] at hb
      simp only [optHolds] at hb
      simp only [Sentence.negated_inwards, hc, Option.map_some]
      cases negate <;> simpa [optHolds, notWrapsPred]
  | exist v b =>
    simp only [noImpliesIff] at hno
    have hb := ih b (by simp [msize]) hno negate
    cases hc : b.negated_inwards negate with
    | none => rw [hc] at hb; simp [optHolds] at hb
    | some c =>
      rw [hc] at hb
      simp only [optHolds] at hb
      simp only [Sentence.negated_inwards, hc, Option.map_some]
      cases negate <;> simpa [optHolds, notWrapsPred]

/-- C3: for every already-simplified sentence (no `Implies`/`IFF`),
`negated_inwards()` succeeds and every `Not` node of its output directly
wraps a `Predicate`. -/
theorem negated_inwards_nnf (S : Sentence) (h : noImpliesIff S = true) :
    optHolds notWrapsPred (S.negated_inwards false) = true :=
  negated_inwards_notWrapsPred S h false

/-- Witness for `negated_inwards_nnf` at the concrete sentence
`Not(And(P, ForAll x. Q(x)))`. -/
theorem negated_inwards_nnf_witness :
    noImpliesIff (Sentence.not (.and [.pred "P" [], .forAll xV (.pred "Q" [.var xV])])) = true ∧
    optHolds notWrapsPred
      ((Sentence.not (.and [.pred "P" [], .forAll xV (.pred "Q" [.var xV])])).negated_inwards
        false) = true :=
  ⟨rfl, negated_inwards_nnf (.not (.and [.pred "P" [], .forAll xV (.pred "Q" [.var xV])])) rfl⟩

mutual
/-- Some quantifier node inside the sentence binds exactly the variable
`v` (by object identity). -/
def bindsVar (v : Variable) : Sentence → Bool
  | .pred _ _ => false
  | .not s => bindsVar v s
  | .and l => bindsVarL v l
  | .or l => bindsVarL v l
  | .implies a b => bindsVar v a || bindsVar v b
  | .iff a b => bindsVar v a || bindsVar v b
  | .forAll w b => decide (w = v) || bindsVar v b
  | .exist w b => decide (w = v) || bindsVar v b

/-- List version of `bindsVar`. -/
def bindsVarL (v : Variable) : List Sentence → Bool
  | [] => false
  | s :: ss => bindsVar v s || bindsVarL v ss
end

mutual
/-- No quantifier binds a variable that is bound again by a quantifier
nested inside its body. -/
def noShadow : Sentence → Bool
  | .pred _ _ => true
  | .not s => noShadow s
  | .and l => noShadowL l
  | .or l => noShadowL l
  | .implies a b => noShadow a && noShadow b
  | .iff a b => noShadow a && noShadow b
  | .forAll w b => !(bindsVar w b) && noShadow b
  | .exist w b => !(bindsVar w b) && noShadow b

/-- List version of `noShadow`. -/
def noShadowL : List Sentence → Bool
  | [] => true
  | s :: ss => noShadow s && noShadowL ss
end

mutual
/-- The sentence contains no `ForAll` and no `Exists` node. -/
def quantFree : Sentence → Bool
  | .pred _ _ => true
  | .not s => quantFree s
  | .and l => quantFreeL l
  | .or l => quantFreeL l
  | .implies a b => quantFree a && quantFree b
  | .iff a b => quantFree a && quantFree b
  | .forAll _ _ => false
  | .exist _ _ => false

/-- List version of `quantFree`. -/
def quantFreeL : List Sentence → Bool
  | [] => true
  | s :: ss => quantFree s && quantFreeL ss
end

theorem bindsVarL_iff {v : Variable} : ∀ {l : List Sentence},
    bindsVarL v l = true ↔ ∃ x ∈ l, bindsVar v x = true := by
  intro l
  induction l with
  | nil => simp [bindsVarL]
  | cons s ss ih => simp [bindsVarL, ih]

theorem noShadowL_iff : ∀ {l : List Sentence},
    noShadowL l = true ↔ ∀ x ∈ l, noShadow x = true := by
  intro l
  induction l with
  | nil => simp [noShadowL]
  | cons s ss ih => simp [noShadowL, ih]

theorem quantFreeL_iff : ∀ {l : List Sentence},
    quantFreeL l = true ↔ ∀ x ∈ l, quantFree x = true := by
  intro l
  induction l with
  | nil => simp [quantFreeL]
  | cons s ss ih => simp [quantFreeL, ih]

theorem substituteL_forall2 : ∀ {l : List Sentence} {σ : Sub} {m : List Sentence},
    Sentence.substituteL l σ = some m →
    List.Forall₂ (fun y x => y.substitute σ = some x) l m := by
  intro l
  induction l with
  | nil =>
    intro σ m h
    simp only [Sentence.substituteL] at h
    cases h
    exact List.Forall₂.nil
  | cons s ss ih =>
    intro σ m h
    simp only [Sentence.substituteL] at h
    cases hs : s.substitute σ with
    | none => rw [hs] at h; cases h
    | some t =>
      rw [hs] at h
      cases hss : Sentence.substituteL ss σ with
      | none => rw [hss] at h; cases h
      | some ts =>
        rw [hss] at h
        cases h
        exact List.Forall₂.cons hs (ih hss)

theorem substituteL_isSome : ∀ {l : List Sentence} {σ : Sub},
    (∀ y ∈ l, (y.substitute σ).isSome) → (Sentence.substituteL l σ).isSome := by
  intro l
  induction l with
  | nil => intro σ _; simp [Sentence.substituteL]
  | cons s ss ih =>
    intro σ h
    have hs := h s (List.mem_cons_self _ _)
    have hss := ih (fun y hy => h y (List.mem_cons_of_mem _ hy))
    simp only [Sentence.substituteL]
    cases ht : s.substitute σ with
    | none => rw [ht] at hs; simp at hs
    | some t =>
      cases hts : Sentence.substituteL ss σ with
      | none => rw [hts] at hss; simp at hss
      | some ts => simp

theorem msizeL_filter_le (p : Sentence → Bool) : ∀ (l : List Sentence),
    msizeL (l.filter p) ≤ msizeL l := by
  intro l
  induction l with
  | nil => simp [msizeL]
  | cons s ss ih =>
    by_cases hp : p s
    · simp only [List.filter_cons, hp, if_true, msizeL]
      omega
    · have hp2 : p s = false := by rwa [Bool.not_eq_true] at hp
      simp only [List.filter_cons, hp2, Bool.false_eq_true, if_false, msizeL]
      have := msize_pos s
      omega

theorem msizeL_pdedup_le : ∀ (l : List Sentence), msizeL (pdedup l) ≤ msizeL l := by
  have key : ∀ (n : Nat) (l : List Sentence), l.length ≤ n → msizeL (pdedup l) ≤ msizeL l := by
    intro n
    induction n with
    | zero =>
      intro l hl
      cases l with
      | nil => simp [pdedup]
      | cons s ss => simp at hl
    | succ n ih =>
      intro l hl
      cases l with
      | nil => simp [pdedup]
      | cons s ss =>
        rw [pdedup]
        simp only [msizeL]
        have h1 : (ss.filter (fun y => !(peq s y))).length ≤ n := by
          have := List.length_filter_le (fun y => !(peq s y)) ss
          simp at hl
          omega
        have h2 := ih _ h1
        have h3 := msizeL_filter_le (fun y => !(peq s y)) ss
        omega
  intro l
  exact key l.length l (Nat.le_refl _)

theorem msizeL_le_of_forall2 {R : Sentence → Sentence → Prop} :
    ∀ {l m : List Sentence}, List.Forall₂ R l m →
    (∀ y ∈ l, ∀ x, R y x → msize x ≤ msize y) → msizeL m ≤ msizeL l := by
  intro l m h
  induction h with
  | nil => intro _; simp [msizeL]
  | cons h1 h2 ih =>
    intro hp
    simp only [msizeL]
    have ha := hp _ (List.mem_cons_self _ _) _ h1
    have hb := ih (fun y hy x hr => hp y (List.mem_cons_of_mem _ hy) x hr)
    omega

/-- `substitute` never increases the number of sentence nodes (it only
rewrites terms inside predicates, and `frozenset` reconstruction can merge
operands that become equal). -/
theorem substitute_msize_le :
    ∀ S : Sentence, ∀ {σ : Sub} {T : Sentence}, S.substitute σ = some T → msize T ≤ msize S := by
  refine measureInd msize
    (fun S => ∀ {σ : Sub} {T : Sentence}, S.substitute σ = some T → msize T ≤ msize S)
    (fun S ih => ?_)
  intro σ T h
  cases S with
  | pred n args =>
    simp only [Sentence.substitute] at h
    cases h
    simp [msize]
  | not s =>
    simp only [Sentence.substitute] at h
    cases hs : s.substitute σ with
    | none => rw [hs] at h; cases h
    | some t =>
      rw [hs] at h
      cases h
      have := ih s (by simp [msize]) hs
      simp only [msize]
      omega
  | and l =>
    simp only [Sentence.substitute] at h
    cases hl : Sentence.substituteL l σ with
    | none => rw [hl] at h; cases h
    | some m =>
      rw [hl] at h
      cases h
      have hf := substituteL_forall2 hl
      have hm : msizeL m ≤ msizeL l :=
        msizeL_le_of_forall2 hf (fun y hy x hyx =>
          ih y (by have := msize_le_of_mem hy; simp only [msize]; omega) hyx)
      have hd := msizeL_pdedup_le m
      simp only [mkAnd, msize]
      omega
  | or l =>
    simp only [Sentence.substitute] at h
    cases hl : Sentence.substituteL l σ with
    | none => rw [hl] at h; cases h
    | some m =>
      rw [hl] at h
      cases h
      have hf := substituteL_forall2 hl
      have hm : msizeL m ≤ msizeL l :=
        msizeL_le_of_forall2 hf (fun y hy x hyx =>
          ih y (by have := msize_le_of_mem hy; simp only [msize]; omega) hyx)
      have hd := msizeL_pdedup_le m
      simp only [mkOr, msize]
      omega
  | implies a b =>
    simp only [Sentence.substitute] at h
    cases ha : a.substitute σ with
    | none => rw [ha] at h; cases h
    | some a' =>
      rw [ha] at h
      cases hb : b.substitute σ with
      | none => rw [hb] at h; cases h
      | some b' =>
        rw [hb] at h
        cases h
        have h1 := ih a (by simp only [msize]; omega) ha
        have h2 := ih b (by simp only [msize]; omega) hb
        simp only [msize]
        omega
  | iff a b =>
    simp only [Sentence.substitute] at h
    cases ha : a.substitute σ with
    | none => rw [ha] at h; cases h
    | some a' =>
      rw [ha] at h
      cases hb : b.substitute σ with
      | none => rw [hb] at h; cases h
      | some b' =>
        rw [hb] at h
        cases h
        have h1 := ih a (by simp only [msize]; omega) ha
        have h2 := ih b (by simp only [msize]; omega) hb
        simp only [msize]
        omega
  | forAll v b =>
    simp only [Sentence.substitute] at h
    split at h
    · cases h
    · cases hb : b.substitute σ with
      | none => rw [hb] at h; cases h
      | some b' =>
        rw [hb] at h
        cases h
        have := ih b (by simp [msize]) hb
        simp only [msize]
        omega
  | exist v b =>
    simp only [Sentence.substitute] at h
    split at h
    · cases h
    · cases hb : b.substitute σ with
      | none => rw [hb] at h; cases h
      | some b' =>
        rw [hb] at h
        cases h
        have := ih b (by simp [msize]) hb
        simp only [msize]
        omega

/-- `substitute` succeeds when no quantifier of the sentence binds a key of
the substitution (the only failure is the capture error). -/
theorem substitute_isSome :
    ∀ S : Sentence, ∀ {σ : Sub}, (∀ q ∈ σ, bindsVar q.1 S = false) →
    (S.substitute σ).isSome := by
  refine measureInd msize
    (fun S => ∀ {σ : Sub}, (∀ q ∈ σ, bindsVar q.1 S = false) → (S.substitute σ).isSome)
    (fun S ih => ?_)
  intro σ hq
  cases S with
  | pred n args => simp [Sentence.substitute]
  | not s =>
    simp only [Sentence.substitute]
    have hs := ih s (by simp [msize]) (fun q hqm => by
      have := hq q hqm
      simpa [bindsVar] using this)
    cases ht : s.substitute σ with
    | none => rw [ht] at hs; simp at hs
    | some t => simp
  | and l =>
    simp only [Sentence.substitute]
    have hl : (Sentence.substituteL l σ).isSome := by
      refine substituteL_isSome (fun y hy => ?_)
      refine ih y (by have := msize_le_of_mem hy; simp only [msize]; omega) (fun q hqm => ?_)
      have h1 := hq q hqm
      simp only [bindsVar] at h1
      by_contra hc
      simp only [Bool.not_eq_false] at hc
      rw [bindsVarL_iff.mpr ⟨y, hy, hc⟩] at h1
      cases h1
    cases ht : Sentence.substituteL l σ with
    | none => rw [ht] at hl; simp at hl
    | some m => simp
  | or l =>
    simp only [Sentence.substitute]
    have hl : (Sentence.substituteL l σ).isSome := by
      refine substituteL_isSome (fun y hy => ?_)
      refine ih y (by have := msize_le_of_mem hy; simp only [msize]; omega) (fun q hqm => ?_)
      have h1 := hq q hqm
      simp only [bindsVar] at h1
      by_contra hc
      simp only [Bool.not_eq_false] at hc
      rw [bindsVarL_iff.mpr ⟨y, hy, hc⟩] at h1
      cases h1
    cases ht : Sentence.substituteL l σ with
    | none => rw [ht] at hl; simp at hl
    | some m => simp
  | implies a b =>
    simp only [Sentence.substitute]
    have h1 := ih a (by simp only [msize]; omega) (fun q hqm => by
      have := hq q hqm; simp [bindsVar] at this; exact this.1)
    have h2 := ih b (by simp only [msize]; omega) (fun q hqm => by
      have := hq q hqm; simp [bindsVar] at this; exact this.2)
    cases ha : a.substitute σ with
    | none => rw [ha] at h1; simp at h1
    | some a' =>
      cases hb : b.substitute σ with
      | none => rw [hb] at h2; simp at h2
      | some b' => simp
  | iff a b =>
    simp only [Sentence.substitute]
    have h1 := ih a (by simp only [msize]; omega) (fun q hqm => by
      have := hq q hqm; simp [bindsVar] at this; exact this.1)
    have h2 := ih b (by simp only [msize]; omega) (fun q hqm => by
      have := hq q hqm; simp [bindsVar] at this; exact this.2)
    cases ha : a.substitute σ with
    | none => rw [ha] at h1; simp at h1
    | some a' =>
      cases hb : b.substitute σ with
      | none => rw [hb] at h2; simp at h2
      | some b' => simp
  | forAll v b =>
    have hkey : hasKey σ v = false := by
      by_contra hc
      simp only [Bool.not_eq_false, hasKey, Option.isSome_iff_exists] at hc
      obtain ⟨t, ht⟩ := hc
      have hm := lookupT_mem ht
      have := hq (v, t) hm
      simp [bindsVar] at this
    simp only [Sentence.substitute, hkey, Bool.false_eq_true, if_false]
    have hb := ih b (by simp [msize]) (fun q hqm => by
      have := hq q hqm; simp [bindsVar] at this; exact this.2)
    cases ht : b.substitute σ with
    | none => rw [ht] at hb; simp at hb
    | some b' => simp
  | exist v b =>
    have hkey : hasKey σ v = false := by
      by_contra hc
      simp only [Bool.not_eq_false, hasKey, Option.isSome_iff_exists] at hc
      obtain ⟨t, ht⟩ := hc
      have hm := lookupT_mem ht
      have := hq (v, t) hm
      simp [bindsVar] at this
    simp only [Sentence.substitute, hkey, Bool.false_eq_true, if_false]
    have hb := ih b (by simp [msize]) (fun q hqm => by
      have := hq q hqm; simp [bindsVar] at this; exact this.2)
    cases ht : b.substitute σ with
    | none => rw [ht] at hb; simp at hb
    | some b' => simp

theorem forall2_exists_left {R : Sentence → Sentence → Prop} :
    ∀ {l m : List Sentence}, List.Forall₂ R l m → ∀ {x}, x ∈ m → ∃ y ∈ l, R y x := by
  intro l m h
  induction h with
  | nil => intro x hx; cases hx
  | cons h1 h2 ih =>
    intro x hx
    rcases List.mem_cons.mp hx with he | he
    · exact ⟨_, List.mem_cons_self _ _, he ▸ h1⟩
    · obtain ⟨y, hy, hr⟩ := ih he
      exact ⟨y, List.mem_cons_of_mem _ hy, hr⟩

/-- `substitute` introduces no new bound variables: a quantifier of the
output binding `w` comes from a quantifier of the input binding `w`. -/
theorem substitute_bindsVar_le :
    ∀ S : Sentence, ∀ {σ : Sub} {T : Sentence}, S.substitute σ = some T →
    ∀ w, bindsVar w T = true → bindsVar w S = true := by
  refine measureInd msize
    (fun S => ∀ {σ : Sub} {T : Sentence}, S.substitute σ = some T →
      ∀ w, bindsVar w T = true → bindsVar w S = true)
    (fun S ih => ?_)
  intro σ T h w hw
  cases S with
  | pred n args =>
    simp only [Sentence.substitute] at h
    cases h
    simp [bindsVar] at hw
  | not s =>
    simp only [Sentence.substitute] at h
    cases hs : s.substitute σ with
    | none => rw [hs] at h; cases h
    | some t =>
      rw [hs] at h
      cases h
      simp only [bindsVar] at hw ⊢
      exact ih s (by simp [msize]) hs w hw
  | and l =>
    simp only [Sentence.substitute] at h
    cases hl : Sentence.substituteL l σ with
    | none => rw [hl] at h; cases h
    | some m =>
      rw [hl] at h
      cases h
      simp only [mkAnd, bindsVar] at hw
      obtain ⟨x, hx, hbx⟩ := bindsVarL_iff.mp hw
      have hxm := mem_of_mem_pdedup _ x hx
      have hf := substituteL_forall2 hl
      obtain ⟨y, hy, hyx⟩ := forall2_exists_left hf hxm
      simp only [bindsVar]
      refine bindsVarL_iff.mpr ⟨y, hy, ?_⟩
      exact ih y (by have := msize_le_of_mem hy; simp only [msize]; omega) hyx w hbx
  | or l =>
    simp only [Sentence.substitute] at h
    cases hl : Sentence.substituteL l σ with
    | none => rw [hl] at h; cases h
    | some m =>
      rw [hl] at h
      cases h
      simp only [mkOr, bindsVar] at hw
      obtain ⟨x, hx, hbx⟩ := bindsVarL_iff.mp hw
      have hxm := mem_of_mem_pdedup _ x hx
      have hf := substituteL_forall2 hl
      obtain ⟨y, hy, hyx⟩ := forall2_exists_left hf hxm
      simp only [bindsVar]
      refine bindsVarL_iff.mpr ⟨y, hy, ?_⟩
      exact ih y (by have := msize_le_of_mem hy; simp only [msize]; omega) hyx w hbx
  | implies a b =>
    simp only [Sentence.substitute] at h
    cases ha : a.substitute σ with
    | none => rw [ha] at h; cases h
    | some a' =>
      rw [ha] at h
      cases hb : b.substitute σ with
      | none => rw [hb] at h; cases h
      | some b' =>
        rw [hb] at h
        cases h
        simp only [bindsVar, Bool.or_eq_true] at hw ⊢
        rcases hw with h1 | h1
        · exact Or.inl (ih a (by simp only [msize]; omega) ha w h1)
        · exact Or.inr (ih b (by simp only [msize]; omega) hb w h1)
  | iff a b =>
    simp only [Sentence.substitute] at h
    cases ha : a.substitute σ with
    | none => rw [ha] at h; cases h
    | some a' =>
      rw [ha] at h
      cases hb : b.substitute σ with
      | none => rw [hb] at h; cases h
      | some b' =>
        rw [hb] at h
        cases h
        simp only [bindsVar, Bool.or_eq_true] at hw ⊢
        rcases hw with h1 | h1
        · exact Or.inl (ih a (by simp only [msize]; omega) ha w h1)
        · exact Or.inr (ih b (by simp only [msize]; omega) hb w h1)
  | forAll v b =>
    simp only [Sentence.substitute] at h
    split at h
    · cases h
    · cases hb : b.substitute σ with
      | none => rw [hb] at h; cases h
      | some b' =>
        rw [hb] at h
        cases h
        simp only [bindsVar, Bool.or_eq_true] at hw ⊢
        rcases hw with h1 | h1
        · exact Or.inl h1
        · exact Or.inr (ih b (by simp [msize]) hb w h1)
  | exist v b =>
    simp only [Sentence.substitute] at h
    split at h
    · cases h
    · cases hb : b.substitute σ with
      | none => rw [hb] at h; cases h
      | some b' =>
        rw [hb] at h
        cases h
        simp only [bindsVar, Bool.or_eq_true] at hw ⊢
        rcases hw with h1 | h1
        · exact Or.inl h1
        · exact Or.inr (ih b (by simp [msize]) hb w h1)

/-- `substitute` preserves the no-shadowed-binder property. -/
theorem substitute_noShadow :
    ∀ S : Sentence, ∀ {σ : Sub} {T : Sentence}, S.substitute σ = some T →
    noShadow S = true → noShadow T = true := by
  refine measureInd msize
    (fun S => ∀ {σ : Sub} {T : Sentence}, S.substitute σ = some T →
      noShadow S = true → noShadow T = true)
    (fun S ih => ?_)
  intro σ T h hs
  cases S with
  | pred n args =>
    simp only [Sentence.substitute] at h
    cases h
    simp [noShadow]
  | not s =>
    simp only [Sentence.substitute] at h
    cases ht : s.substitute σ with
    | none => rw [ht] at h; cases h
    | some t =>
      rw [ht] at h
      cases h
      simp only [noShadow] at hs ⊢
      exact ih s (by simp [msize]) ht hs
  | and l =>
    simp only [Sentence.substitute] at h
    cases hl : Sentence.substituteL l σ with
    | none => rw [hl] at h; cases h
    | some m =>
      rw [hl] at h
      cases h
      simp only [noShadow] at hs
      simp only [mkAnd, noShadow]
      refine noShadowL_iff.mpr (fun x hx => ?_)
      have hxm := mem_of_mem_pdedup _ x hx
      have hf := substituteL_forall2 hl
      obtain ⟨y, hy, hyx⟩ := forall2_exists_left hf hxm
      exact ih y (by have := msize_le_of_mem hy; simp only [msize]; omega) hyx
        (noShadowL_iff.mp hs y hy)
  | or l =>
    simp only [Sentence.substitute] at h
    cases hl : Sentence.substituteL l σ with
    | none => rw [hl] at h; cases h
    | some m =>
      rw [hl] at h
      cases h
      simp only [noShadow] at hs
      simp only [mkOr, noShadow]
      refine noShadowL_iff.mpr (fun x hx => ?_)
      have hxm := mem_of_mem_pdedup _ x hx
      have hf := substituteL_forall2 hl
      obtain ⟨y, hy, hyx⟩ := forall2_exists_left hf hxm
      exact ih y (by have := msize_le_of_mem hy; simp only [msize]; omega) hyx
        (noShadowL_iff.mp hs y hy)
  | implies a b =>
    simp only [Sentence.substitute] at h
    cases ha : a.substitute σ with
    | none => rw [ha] at h; cases h
    | some a' =>
      rw [ha] at h
      cases hb : b.substitute σ with
      | none => rw [hb] at h; cases h
      | some b' =>
        rw [hb] at h
        cases h
        simp only [noShadow, Bool.and_eq_true] at hs ⊢
        exact ⟨ih a (by simp only [msize]; omega) ha hs.1,
               ih b (by simp only [msize]; omega) hb hs.2⟩
  | iff a b =>
    simp only [Sentence.substitute] at h
    cases ha : a.substitute σ with
    | none => rw [ha] at h; cases h
    | some a' =>
      rw [ha] at h
      cases hb : b.substitute σ with
      | none => rw [hb] at h; cases h
      | some b' =>
        rw [hb] at h
        cases h
        simp only [noShadow, Bool.and_eq_true] at hs ⊢
        exact ⟨ih a (by simp only [msize]; omega) ha hs.1,
               ih b (by simp only [msize]; omega) hb hs.2⟩
  | forAll v b =>
    simp only [Sentence.substitute] at h
    split at h
    · cases h
    · cases hb : b.substitute σ with
      | none => rw [hb] at h; cases h
      | some b' =>
        rw [hb] at h
        cases h
        simp only [noShadow, Bool.and_eq_true] at hs ⊢
        refine ⟨?_, ih b (by simp [msize]) hb hs.2⟩
        by_contra hc
        have hc2 : bindsVar v b' = true := by revert hc; cases bindsVar v b' <;> simp
        have := substitute_bindsVar_le b hb v hc2
        rw [this] at hs
        simpa using hs.1
  | exist v b =>
    simp only [Sentence.substitute] at h
    split at h
    · cases h
    · cases hb : b.substitute σ with
      | none => rw [hb] at h; cases h
      | some b' =>
        rw [hb] at h
        cases h
        simp only [noShadow, Bool.and_eq_true] at hs ⊢
        refine ⟨?_, ih b (by simp [msize]) hb hs.2⟩
        by_contra hc
        have hc2 : bindsVar v b' = true := by revert hc; cases bindsVar v b' <;> simp
        have := substitute_bindsVar_le b hb v hc2
        rw [this] at hs
        simpa using hs.1

/-- The Skolem function name for the `k`-th eliminated `Exists`: the Python
code uses `str(id(self))`, an arbitrary name that is fresh per `Exists`
occurrence; the monotone counter models that freshness. -/
def skName (k : Nat) : String := "sk" ++ toString k

/-- `{v}.union(variables)`: the scope set of universally quantified
variables, one iteration order of the Python set. -/
def insertScope (v : Variable) (vars : List Variable) : List Variable :=
  if v ∈ vars then vars else v :: vars

mutual
/-- Models `skolemised(variables=tuple())`: replaces each existentially
quantified variable by a fresh `Function` of the universally quantified
variables in scope (`ForAll` adds its variable to the scope and is dropped;
`Exists` substitutes `{v ↦ Function(fresh, *scope)}` into its body — which
can raise the capture error, modelled by `none` — and recurses on the
result); every other variant recurses with the scope unchanged and rebuilds
itself.  The counter is threaded through to generate fresh Skolem names. -/
def Sentence.skolemised : Sentence → List Variable → Nat → Option (Sentence × Nat)
  | .pred n args, _, k => some (.pred n args, k)
  | .not s, vars, k => (s.skolemised vars k).map (fun p => (.not p.1, p.2))
  | .and l, vars, k => (Sentence.skolemisedL l vars k).map (fun p => (mkAnd p.1, p.2))
  | .or l, vars, k => (Sentence.skolemisedL l vars k).map (fun p => (mkOr p.1, p.2))
  | .implies a b, vars, k =>
    match a.skolemised vars k with
    | none => none
    | some (a', k1) =>
      match b.skolemised vars k1 with
      | none => none
      | some (b', k2) => some (.implies a' b', k2)
  | .iff a b, vars, k =>
    match a.skolemised vars k with
    | none => none
    | some (a', k1) =>
      match b.skolemised vars k1 with
      | none => none
      | some (b', k2) => some (.iff a' b', k2)
  | .forAll v b, vars, k => b.skolemised (insertScope v vars) k
  | .exist v b, vars, k =>
    match h : b.substitute [(v, .func (skName k) (vars.map Term.var))] with
    | none => none
    | some b2 => b2.skolemised vars (k + 1)
termination_by S _ _ => 3 * msize S
decreasing_by
  all_goals simp only [msize, msizeL]
  all_goals first
    | omega
    | (have hp := substitute_msize_le _ h; omega)

/-- `skolemised` over `And`/`Or` content, threading the fresh-name
counter. -/
def Sentence.skolemisedL : List Sentence → List Variable → Nat → Option (List Sentence × Nat)
  | [], _, k => some ([], k)
  | s :: ss, vars, k =>
    match s.skolemised vars k with
    | none => none
    | some (t, k1) =>
      match Sentence.skolemisedL ss vars k1 with
      | none => none
      | some (ts, k2) => some (t :: ts, k2)
termination_by l _ _ => 3 * msizeL l + 1
decreasing_by
  all_goals simp only [msize, msizeL]
  all_goals first
    | omega
    | (have hp := msize_pos s; omega)
end

theorem skolemised_pred (n : String) (args : List Term) (vars : List Variable) (k : Nat) :
    (Sentence.pred n args).skolemised vars k = some (.pred n args, k) := by
  simp only [Sentence.skolemised]

theorem skolemised_not (s : Sentence) (vars : List Variable) (k : Nat) :
    (Sentence.not s).skolemised vars k =
      (s.skolemised vars k).map (fun p => (.not p.1, p.2)) := by
  simp only [Sentence.skolemised]

theorem skolemised_and (l : List Sentence) (vars : List Variable) (k : Nat) :
    (Sentence.and l).skolemised vars k =
      (Sentence.skolemisedL l vars k).map (fun p => (mkAnd p.1, p.2)) := by
  simp only [Sentence.skolemised]

theorem skolemised_or (l : List Sentence) (vars : List Variable) (k : Nat) :
    (Sentence.or l).skolemised vars k =
      (Sentence.skolemisedL l vars k).map (fun p => (mkOr p.1, p.2)) := by
  simp only [Sentence.skolemised]

theorem skolemised_forAll (v : Variable) (b : Sentence) (vars : List Variable) (k : Nat) :
    (Sentence.forAll v b).skolemised vars k = b.skolemised (insertScope v vars) k := by
  simp only [Sentence.skolemised]

theorem skolemised_exist_none (v : Variable) (b : Sentence) (vars : List Variable) (k : Nat)
    (hsub : b.substitute [(v, .func (skName k) (vars.map Term.var))] = none) :
    (Sentence.exist v b).skolemised vars k = none := by
  simp only [Sentence.skolemised]
  split
  · rfl
  · rename_i b3 h
    rw [h] at hsub
    cases hsub

theorem skolemised_exist_some (v : Variable) (b : Sentence) (vars : List Variable) (k : Nat)
    (b2 : Sentence) (hsub : b.substitute [(v, .func (skName k) (vars.map Term.var))] = some b2) :
    (Sentence.exist v b).skolemised vars k = b2.skolemised vars (k + 1) := by
  simp only [Sentence.skolemised]
  split
  · rename_i h
    rw [h] at hsub
    cases hsub
  · rename_i b3 h
    rw [h] at hsub
    cases hsub
    rfl

theorem skolemisedL_nil (vars : List Variable) (k : Nat) :
    Sentence.skolemisedL [] vars k = some ([], k) := by
  simp only [Sentence.skolemisedL]

theorem skolemisedL_cons (s : Sentence) (ss : List Sentence) (vars : List Variable) (k : Nat) :
    Sentence.skolemisedL (s :: ss) vars k =
      (match s.skolemised vars k with
       | none => none
       | some (t, k1) =>
         match Sentence.skolemisedL ss vars k1 with
         | none => none
         | some (ts, k2) => some (t :: ts, k2)) := by
  simp only [Sentence.skolemisedL]

theorem skolemised_implies (a b : Sentence) (vars : List Variable) (k : Nat) :
    (Sentence.implies a b).skolemised vars k =
      (match a.skolemised vars k with
       | none => none
       | some (a', k1) =>
         match b.skolemised vars k1 with
         | none => none
         | some (b', k2) => some (.implies a' b', k2)) := by
  simp only [Sentence.skolemised]

theorem skolemised_iff_eq (a b : Sentence) (vars : List Variable) (k : Nat) :
    (Sentence.iff a b).skolemised vars k =
      (match a.skolemised vars k with
       | none => none
       | some (a', k1) =>
         match b.skolemised vars k1 with
         | none => none
         | some (b', k2) => some (.iff a' b', k2)) := by
  simp only [Sentence.skolemised]

/-- C4, generalised: for every sentence without shadowed binders,
`skolemised` succeeds (no capture error) and its output is free of
quantifiers, whatever the scope and counter. -/
theorem skolemised_quantFree :
    ∀ S : Sentence, noShadow S = true → ∀ (vars : List Variable) (k : Nat),
    ∃ T k2, S.skolemised vars k = some (T, k2) ∧ quantFree T = true := by
  refine measureInd msize
    (fun S => noShadow S = true → ∀ (vars : List Variable) (k : Nat),
      ∃ T k2, S.skolemised vars k = some (T, k2) ∧ quantFree T = true)
    (fun S ih => ?_)
  intro hs vars k
  cases S with
  | pred n args => exact ⟨.pred n args, k, skolemised_pred n args vars k, rfl⟩
  | not s =>
    simp only [noShadow] at hs
    obtain ⟨T, k2, hT, hq⟩ := ih s (by simp [msize]) hs vars k
    exact ⟨.not T, k2, by rw [skolemised_not, hT]; rfl, by simpa [quantFree] using hq⟩
  | and l =>
    simp only [noShadow] at hs
    have key : ∀ (ll : List Sentence), msizeL ll ≤ msizeL l →
        (∀ y ∈ ll, noShadow y = true) → ∀ (k1 : Nat),
        ∃ m k2, Sentence.skolemisedL ll vars k1 = some (m, k2) ∧
          ∀ x ∈ m, quantFree x = true := by
      intro ll
      induction ll with
      | nil => intro _ _ k1; exact ⟨[], k1, skolemisedL_nil vars k1, by simp⟩
      | cons y ys ihy =>
        intro hsz hys k1
        have hy1 : msize y ≤ msizeL l := by simp only [msizeL] at hsz; omega
        obtain ⟨t, kt, ht, hqt⟩ := ih y (by simp only [msize]; omega)
          (hys y (List.mem_cons_self _ _)) vars k1
        obtain ⟨ts, kts, hts, hqts⟩ := ihy
          (by simp only [msizeL] at hsz ⊢; have := msize_pos y; omega)
          (fun z hz => hys z (List.mem_cons_of_mem _ hz)) kt
        refine ⟨t :: ts, kts, ?_, ?_⟩
        · simp only [skolemisedL_cons, ht, hts]
        · intro x hx
          rcases List.mem_cons.mp hx with he | he
          · exact he ▸ hqt
          · exact hqts x he
    obtain ⟨m, k2, hm, hqm⟩ := key l (Nat.le_refl _) (noShadowL_iff.mp hs) k
    refine ⟨mkAnd m, k2, by rw [skolemised_and, hm]; rfl, ?_⟩
    simp only [mkAnd, quantFree]
    exact quantFreeL_iff.mpr (fun x hx => hqm x (mem_of_mem_pdedup _ x hx))
  | or l =>
    simp only [noShadow] at hs
    have key : ∀ (ll : List Sentence), msizeL ll ≤ msizeL l →
        (∀ y ∈ ll, noShadow y = true) → ∀ (k1 : Nat),
        ∃ m k2, Sentence.skolemisedL ll vars k1 = some (m, k2) ∧
          ∀ x ∈ m, quantFree x = true := by
      intro ll
      induction ll with
      | nil => intro _ _ k1; exact ⟨[], k1, skolemisedL_nil vars k1, by simp⟩
      | cons y ys ihy =>
        intro hsz hys k1
        have hy1 : msize y ≤ msizeL l := by simp only [msizeL] at hsz; omega
        obtain ⟨t, kt, ht, hqt⟩ := ih y (by simp only [msize]; omega)
          (hys y (List.mem_cons_self _ _)) vars k1
        obtain ⟨ts, kts, hts, hqts⟩ := ihy
          (by simp only [msizeL] at hsz ⊢; have := msize_pos y; omega)
          (fun z hz => hys z (List.mem_cons_of_mem _ hz)) kt
        refine ⟨t :: ts, kts, ?_, ?_⟩
        · simp only [skolemisedL_cons, ht, hts]
        · intro x hx
          rcases List.mem_cons.mp hx with he | he
          · exact he ▸ hqt
          · exact hqts x he
    obtain ⟨m, k2, hm, hqm⟩ := key l (Nat.le_refl _) (noShadowL_iff.mp hs) k
    refine ⟨mkOr m, k2, by rw [skolemised_or, hm]; rfl, ?_⟩
    simp only [mkOr, quantFree]
    exact quantFreeL_iff.mpr (fun x hx => hqm x (mem_of_mem_pdedup _ x hx))
  | implies a b =>
    simp only [noShadow, Bool.and_eq_true] at hs
    obtain ⟨a', k1, ha, hqa⟩ := ih a (by simp only [msize]; omega) hs.1 vars k
    obtain ⟨b', k2, hb, hqb⟩ := ih b (by simp only [msize]; omega) hs.2 vars k1
    refine ⟨.implies a' b', k2, ?_, ?_⟩
    · simp only [skolemised_implies, ha, hb]
    · simp [quantFree, hqa, hqb]
  | iff a b =>
    simp only [noShadow, Bool.and_eq_true] at hs
    obtain ⟨a', k1, ha, hqa⟩ := ih a (by simp only [msize]; omega) hs.1 vars k
    obtain ⟨b', k2, hb, hqb⟩ := ih b (by simp only [msize]; omega) hs.2 vars k1
    refine ⟨.iff a' b', k2, ?_, ?_⟩
    · simp only [skolemised_iff_eq, ha, hb]
    · simp [quantFree, hqa, hqb]
  | forAll v b =>
    simp only [noShadow, Bool.and_eq_true] at hs
    obtain ⟨T, k2, hT, hq⟩ := ih b (by simp [msize]) hs.2 (insertScope v vars) k
    exact ⟨T, k2, by rw [skolemised_forAll, hT], hq⟩
  | exist v b =>
    simp only [noShadow, Bool.and_eq_true] at hs
    have hbv : bindsVar v b = false := by
      have := hs.1
      revert this
      cases bindsVar v b <;> simp
    have hsome : (b.substitute [(v, Term.func (skName k) (vars.map Term.var))]).isSome = true :=
      substitute_isSome b
        (by intro q hq
            rcases List.mem_singleton.mp hq with he
            rw [he]
            exact hbv)
    cases hsub : b.substitute [(v, .func (skName k) (vars.map Term.var))] with
    | none => rw [hsub] at hsome; simp at hsome
    | some b2 =>
      have hms := substitute_msize_le b hsub
      have hns := substitute_noShadow b hsub hs.2
      obtain ⟨T, k2, hT, hq⟩ := ih b2 (by simp only [msize]; omega) hns vars (k + 1)
      refine ⟨T, k2, ?_, hq⟩
      rw [skolemised_exist_some v b vars k b2 hsub]
      exact hT

/-- Negation normal form: no `Implies`/`IFF`, and every `Not` directly
wraps a `Predicate`. -/
def isNNF (S : Sentence) : Bool := noImpliesIff S && notWrapsPred S

/-- The second variable used by the concrete examples. -/
def yV : Variable := ⟨1, "y"⟩

/-- C4, counterexample: on the negation-normal sentence
`Exists x. Exists x. P(x)` (the same `Variable` object bound twice),
`skolemised()` substitutes `{x ↦ sk0}` through the inner `Exists x`, whose
`Quantifier.substitute` raises the capture error instead of returning a
sentence. -/
theorem skolemised_capture_counterexample :
    isNNF (.exist xV (.exist xV (.pred "P" [.var xV]))) = true ∧
    Sentence.skolemised (.exist xV (.exist xV (.pred "P" [.var xV]))) [] 0 = none := by
  constructor
  · rfl
  · rw [skolemised_exist_none]
    simp [Sentence.substitute, hasKey, lookupT, xV]

/-- C4 (amended): for every sentence in negation normal form in which no
quantifier binds a variable that is quantified again inside its body,
`skolemised()` succeeds and returns a sentence containing no `Exists` node
and no `ForAll` node.  The no-shadowing condition is forced by the
counterexample: a rebinding of the same `Variable` makes the `Exists` case
raise the capture error. -/
theorem skolemised_no_quantifiers (S : Sentence) (h1 : isNNF S = true)
    (h2 : noShadow S = true) :
    ∃ T k2, S.skolemised [] 0 = some (T, k2) ∧ quantFree T = true :=
  skolemised_quantFree S h2 [] 0

/-- Witness for `skolemised_no_quantifiers` at the spec's own example
`ForAll x. Exists y. Loves(x, y)`. -/
theorem skolemised_no_quantifiers_witness :
    isNNF (.forAll xV (.exist yV (.pred "Loves" [.var xV, .var yV]))) = true ∧
    noShadow (.forAll xV (.exist yV (.pred "Loves" [.var xV, .var yV]))) = true ∧
    ∃ T k2, (Sentence.forAll xV (.exist yV (.pred "Loves" [.var xV, .var yV]))).skolemised
      [] 0 = some (T, k2) ∧ quantFree T = true :=
  ⟨rfl, rfl,
    skolemised_no_quantifiers (.forAll xV (.exist yV (.pred "Loves" [.var xV, .var yV])))
      rfl rfl⟩

/-- C7: substituting through a quantifier whose own bound variable is a key
of the substitution fails with the capture error (`ValueError` in the code,
`CaptureError` in the spec) before any substitution is performed — whatever
the body is — and the error propagates to enclosing callers (`Not`,
`Implies`, `And` shown); when the bound variable is not a key, substitution
proceeds into the body and the quantifier is rebuilt around the result. -/
theorem quantifier_substitute_capture (v : Variable) (b : Sentence) (σ : Sub) :
    (hasKey σ v = true →
      (Sentence.forAll v b).substitute σ = none ∧
      (Sentence.exist v b).substitute σ = none ∧
      (∀ s : Sentence,
        (Sentence.not (.forAll v b)).substitute σ = none ∧
        (Sentence.implies (.forAll v b) s).substitute σ = none ∧
        (Sentence.and (.forAll v b :: [s])).substitute σ = none)) ∧
    (hasKey σ v = false →
      (Sentence.forAll v b).substitute σ = (b.substitute σ).map (.forAll v) ∧
      (Sentence.exist v b).substitute σ = (b.substitute σ).map (.exist v)) := by
  constructor
  · intro hk
    have h1 : (Sentence.forAll v b).substitute σ = none := by
      simp [Sentence.substitute, hk]
    have h2 : (Sentence.exist v b).substitute σ = none := by
      simp [Sentence.substitute, hk]
    have hnot : (Sentence.not (.forAll v b)).substitute σ =
        ((Sentence.forAll v b).substitute σ).map .not := rfl
    refine ⟨h1, h2, fun s => ⟨?_, ?_, ?_⟩⟩
    · rw [hnot, h1]
      rfl
    · have himp : (Sentence.implies (.forAll v b) s).substitute σ =
          (match (Sentence.forAll v b).substitute σ, s.substitute σ with
           | some a', some b' => some (.implies a' b')
           | _, _ => none) := rfl
      rw [himp, h1]
    · have hl : Sentence.substituteL (.forAll v b :: [s]) σ =
          (match (Sentence.forAll v b).substitute σ, Sentence.substituteL [s] σ with
           | some t, some ts => some (t :: ts)
           | _, _ => none) := rfl
      have hand : (Sentence.and (.forAll v b :: [s])).substitute σ =
          (Sentence.substituteL (.forAll v b :: [s]) σ).map mkAnd := rfl
      rw [hand, hl, h1]
      rfl
  · intro hk
    constructor <;> simp [Sentence.substitute, hk]

/-- Witness for `quantifier_substitute_capture`: with `σ = {x ↦ a}`,
substituting through `ForAll x. P(x)` fails, the failure propagates through
an enclosing `Not`, and with the empty substitution it proceeds into the
body. -/
theorem quantifier_substitute_capture_witness :
    hasKey [(xV, Term.func "a" [])] xV = true ∧
    (Sentence.forAll xV (.pred "P" [.var xV])).substitute [(xV, .func "a" [])] = none ∧
    (Sentence.not (.forAll xV (.pred "P" [.var xV]))).substitute [(xV, .func "a" [])] = none ∧
    hasKey ([] : Sub) xV = false ∧
    (Sentence.forAll xV (.pred "P" [.var xV])).substitute [] =
      ((Sentence.pred "P" [.var xV]).substitute []).map (.forAll xV) :=
  ⟨rfl,
   ((quantifier_substitute_capture xV (.pred "P" [.var xV]) [(xV, .func "a" [])]).1 rfl).1,
   (((quantifier_substitute_capture xV (.pred "P" [.var xV]) [(xV, .func "a" [])]).1 rfl).2.2
     (.pred "Q" [])).1,
   rfl,
   ((quantifier_substitute_capture xV (.pred "P" [.var xV]) []).2 rfl).1⟩

mutual
/-- Models `Function.free_variables()` (also used by `Predicate`): the set
of `Variable`s transitively reachable through the term. -/
def Term.free_variables : Term → Finset Variable
  | .var v => {v}
  | .func _ args => Term.free_variablesL args

/-- Union of the free variables of a list of terms. -/
def Term.free_variablesL : List Term → Finset Variable
  | [] => ∅
  | t :: ts => Term.free_variables t ∪ Term.free_variablesL ts
end

mutual
/-- Models `Sentence.free_variables()`: the union of the content's free
variables; a quantifier discards its own bound variable. -/
def Sentence.free_variables : Sentence → Finset Variable
  | .pred _ args => Term.free_variablesL args
  | .not s => s.free_variables
  | .and l => Sentence.free_variablesL l
  | .or l => Sentence.free_variablesL l
  | .implies a b => a.free_variables ∪ b.free_variables
  | .iff a b => a.free_variables ∪ b.free_variables
  | .forAll v b => b.free_variables \ {v}
  | .exist v b => b.free_variables \ {v}

/-- Union of the free variables of a list of sentences. -/
def Sentence.free_variablesL : List Sentence → Finset Variable
  | [] => ∅
  | s :: ss => s.free_variables ∪ Sentence.free_variablesL ss
end

/-- The flattening loop of `AssociativeCommutativeBinaryOperator.cleaned`
for an `And` parent: a child of the same variant contributes its operands,
any other child contributes itself. -/
def flattenAnd : List Sentence → List Sentence
  | [] => []
  | .and m :: rest => m ++ flattenAnd rest
  | c :: rest => c :: flattenAnd rest

/-- The flattening loop for an `Or` parent. -/
def flattenOr : List Sentence → List Sentence
  | [] => []
  | .or m :: rest => m ++ flattenOr rest
  | c :: rest => c :: flattenOr rest

theorem msizeL_append : ∀ (a b : List Sentence), msizeL (a ++ b) = msizeL a + msizeL b := by
  intro a b
  induction a with
  | nil => simp [msizeL]
  | cons s ss ih =>
    show msizeL (s :: (ss ++ b)) = msizeL (s :: ss) + msizeL b
    simp only [msizeL, ih]
    omega

theorem msizeL_flattenAnd_le : ∀ (l : List Sentence), msizeL (flattenAnd l) ≤ msizeL l := by
  intro l
  induction l with
  | nil => simp [flattenAnd]
  | cons c rest ih =>
    cases c with
    | and m =>
      simp only [flattenAnd, msizeL, msize]
      have := msizeL_append m (flattenAnd rest)
      omega
    | pred n args => simp only [flattenAnd, msizeL]; omega
    | not s => simp only [flattenAnd, msizeL]; omega
    | or m => simp only [flattenAnd, msizeL]; omega
    | implies a b => simp only [flattenAnd, msizeL]; omega
    | iff a b => simp only [flattenAnd, msizeL]; omega
    | forAll v b => simp only [flattenAnd, msizeL]; omega
    | exist v b => simp only [flattenAnd, msizeL]; omega

theorem msizeL_flattenOr_le : ∀ (l : List Sentence), msizeL (flattenOr l) ≤ msizeL l := by
  intro l
  induction l with
  | nil => simp [flattenOr]
  | cons c rest ih =>
    cases c with
    | or m =>
      simp only [flattenOr, msizeL, msize]
      have := msizeL_append m (flattenOr rest)
      omega
    | pred n args => simp only [flattenOr, msizeL]; omega
    | not s => simp only [flattenOr, msizeL]; omega
    | and m => simp only [flattenOr, msizeL]; omega
    | implies a b => simp only [flattenOr, msizeL]; omega
    | iff a b => simp only [flattenOr, msizeL]; omega
    | forAll v b => simp only [flattenOr, msizeL]; omega
    | exist v b => simp only [flattenOr, msizeL]; omega

mutual
/-- Models `cleaned()`, together with a proof that cleanup never grows the
sentence (needed because the code re-cleans the sole remaining operand).
`Predicate` copies itself; `Not`/`Implies`/`IFF` rebuild around cleaned
children; a `Quantifier` whose bound variable does not occur free in its
body is replaced by its cleaned body; `And`/`Or` clean their operands
(rebuilding the `frozenset`), collapse to the sole operand — cleaned again —
if only one remains, and otherwise flatten same-variant children into
themselves and deduplicate.  The empty-content `And`/`Or` cases are
unreachable for Python-constructible sentences (the constructors require at
least one operand). -/
def cleanedS : (S : Sentence) → {T : Sentence // msize T ≤ msize S}
  | .pred n args => ⟨.pred n args, Nat.le_refl _⟩
  | .not s =>
    let r := cleanedS s
    ⟨.not r.1, by have := r.2; simp only [msize]; omega⟩
  | .implies a b =>
    let ra := cleanedS a
    let rb := cleanedS b
    ⟨.implies ra.1 rb.1, by have := ra.2; have := rb.2; simp only [msize]; omega⟩
  | .iff a b =>
    let ra := cleanedS a
    let rb := cleanedS b
    ⟨.iff ra.1 rb.1, by have := ra.2; have := rb.2; simp only [msize]; omega⟩
  | .forAll v b =>
    if v ∈ b.free_variables then
      let r := cleanedS b
      ⟨.forAll v r.1, by have := r.2; simp only [msize]; omega⟩
    else
      let r := cleanedS b
      ⟨r.1, by have := r.2; simp only [msize]; omega⟩
  | .exist v b =>
    if v ∈ b.free_variables then
      let r := cleanedS b
      ⟨.exist v r.1, by have := r.2; simp only [msize]; omega⟩
    else
      let r := cleanedS b
      ⟨r.1, by have := r.2; simp only [msize]; omega⟩
  | .and l =>
    match cleanedLS l with
    | ⟨r, hr⟩ =>
      match hp : pdedup r with
      | [e] =>
        have he : msize e ≤ msizeL l := by
          have h2 : msize e ≤ msizeL (pdedup r) := by rw [hp]; simp [msizeL]
          have h3 := msizeL_pdedup_le r
          omega
        let c := cleanedS e
        ⟨c.1, by have h1 := c.2; simp only [msize]; omega⟩
      | p =>
        ⟨.and (pdedup (flattenAnd p)), by
          have h1 := msizeL_pdedup_le (flattenAnd p)
          have h2 := msizeL_flattenAnd_le p
          have h3 : msizeL p ≤ msizeL r := hp ▸ msizeL_pdedup_le r
          simp only [msize]
          omega⟩
  | .or l =>
    match cleanedLS l with
    | ⟨r, hr⟩ =>
      match hp : pdedup r with
      | [e] =>
        have he : msize e ≤ msizeL l := by
          have h2 : msize e ≤ msizeL (pdedup r) := by rw [hp]; simp [msizeL]
          have h3 := msizeL_pdedup_le r
          omega
        let c := cleanedS e
        ⟨c.1, by have h1 := c.2; simp only [msize]; omega⟩
      | p =>
        ⟨.or (pdedup (flattenOr p)), by
          have h1 := msizeL_pdedup_le (flattenOr p)
          have h2 := msizeL_flattenOr_le p
          have h3 : msizeL p ≤ msizeL r := hp ▸ msizeL_pdedup_le r
          simp only [msize]
          omega⟩
termination_by S => 3 * msize S
decreasing_by
  all_goals simp only [msize, msizeL]
  all_goals omega

/-- `cleaned` over a content list (`super().cleaned()`'s recursion into the
operands), with the same size bound. -/
def cleanedLS : (l : List Sentence) → {m : List Sentence // msizeL m ≤ msizeL l}
  | [] => ⟨[], Nat.le_refl _⟩
  | s :: ss =>
    let a := cleanedS s
    let b := cleanedLS ss
    ⟨a.1 :: b.1, by have := a.2; have := b.2; simp only [msizeL]; omega⟩
termination_by l => 3 * msizeL l + 1
decreasing_by
  all_goals simp only [msize, msizeL]
  all_goals first
    | omega
    | (have hp := msize_pos s; omega)
end

/-- Models `cleaned()` (the sentence part of `cleanedS`). -/
def Sentence.cleaned (S : Sentence) : Sentence := (cleanedS S).1

/-- `cleaned` mapped over a content list. -/
def cleanedL (l : List Sentence) : List Sentence := (cleanedLS l).1

theorem cleaned_pred (n : String) (args : List Term) :
    (Sentence.pred n args).cleaned = .pred n args := by
  simp only [Sentence.cleaned, cleanedS]

theorem cleaned_not (s : Sentence) : (Sentence.not s).cleaned = .not s.cleaned := by
  simp only [Sentence.cleaned, cleanedS]

theorem cleaned_implies (a b : Sentence) :
    (Sentence.implies a b).cleaned = .implies a.cleaned b.cleaned := by
  simp only [Sentence.cleaned, cleanedS]

theorem cleaned_iff_eq (a b : Sentence) :
    (Sentence.iff a b).cleaned = .iff a.cleaned b.cleaned := by
  simp only [Sentence.cleaned, cleanedS]

theorem cleaned_forAll_mem (v : Variable) (b : Sentence) (h : v ∈ b.free_variables) :
    (Sentence.forAll v b).cleaned = .forAll v b.cleaned := by
  simp only [Sentence.cleaned, cleanedS, h, if_true]

theorem cleaned_forAll_not_mem (v : Variable) (b : Sentence) (h : v ∉ b.free_variables) :
    (Sentence.forAll v b).cleaned = b.cleaned := by
  simp only [Sentence.cleaned, cleanedS, h, if_false]

theorem cleaned_exist_mem (v : Variable) (b : Sentence) (h : v ∈ b.free_variables) :
    (Sentence.exist v b).cleaned = .exist v b.cleaned := by
  simp only [Sentence.cleaned, cleanedS, h, if_true]

theorem cleaned_exist_not_mem (v : Variable) (b : Sentence) (h : v ∉ b.free_variables) :
    (Sentence.exist v b).cleaned = b.cleaned := by
  simp only [Sentence.cleaned, cleanedS, h, if_false]

theorem cleanedL_nil : cleanedL [] = [] := by
  simp only [cleanedL, cleanedLS]

theorem cleanedL_cons (s : Sentence) (ss : List Sentence) :
    cleanedL (s :: ss) = s.cleaned :: cleanedL ss := by
  simp only [cleanedL, cleanedLS, Sentence.cleaned]

theorem cleaned_and_single (l : List Sentence) (e : Sentence)
    (h : pdedup (cleanedL l) = [e]) : (Sentence.and l).cleaned = e.cleaned := by
  simp only [Sentence.cleaned, cleanedS]
  split
  · rename_i e2 hp
    simp only [cleanedL] at h
    rw [h] at hp
    cases hp
    rfl
  · rename_i hne
    simp only [cleanedL] at h
    exact absurd h (hne e)

theorem cleaned_and_multi (l : List Sentence)
    (h : ∀ e : Sentence, pdedup (cleanedL l) ≠ [e]) :
    (Sentence.and l).cleaned = .and (pdedup (flattenAnd (pdedup (cleanedL l)))) := by
  simp only [Sentence.cleaned, cleanedS]
  split
  · rename_i e2 hp
    simp only [cleanedL] at h
    exact absurd hp (h e2)
  · rename_i hne
    simp only [cleanedL]

theorem cleaned_or_single (l : List Sentence) (e : Sentence)
    (h : pdedup (cleanedL l) = [e]) : (Sentence.or l).cleaned = e.cleaned := by
  simp only [Sentence.cleaned, cleanedS]
  split
  · rename_i e2 hp
    simp only [cleanedL] at h
    rw [h] at hp
    cases hp
    rfl
  · rename_i hne
    simp only [cleanedL] at h
    exact absurd h (hne e)

theorem cleaned_or_multi (l : List Sentence)
    (h : ∀ e : Sentence, pdedup (cleanedL l) ≠ [e]) :
    (Sentence.or l).cleaned = .or (pdedup (flattenOr (pdedup (cleanedL l)))) := by
  simp only [Sentence.cleaned, cleanedS]
  split
  · rename_i e2 hp
    simp only [cleanedL] at h
    exact absurd hp (h e2)
  · rename_i hne
    simp only [cleanedL]

/-- Models `distributed()`.  In the code this pass is left unfinished:
`AssociativeCommutativeBinaryOperator.distributed(self, otherType)` is a
bare ellipsis stub with a mandatory extra parameter, so invoking
`.distributed()` on an `And`/`Or` raises `TypeError`; the inherited
recursive default on a `Predicate` calls `.distributed()` on its `Term`
arguments, which do not have the method, raising `AttributeError` whenever
the predicate has arguments.  `none` models those exceptions; only
`Not`/`Implies`/`IFF`/quantifier spines over 0-ary predicates succeed. -/
def Sentence.distributed : Sentence → Option Sentence
  | .pred n [] => some (.pred n [])
  | .pred _ (_ :: _) => none
  | .not s => (s.distributed).map .not
  | .and _ => none
  | .or _ => none
  | .implies a b =>
    match a.distributed, b.distributed with
    | some a', some b' => some (.implies a' b')
    | _, _ => none
  | .iff a b =>
    match a.distributed, b.distributed with
    | some a', some b' => some (.iff a' b')
    | _, _ => none
  | .forAll v b => (b.distributed).map (.forAll v)
  | .exist v b => (b.distributed).map (.exist v)

/-- Models `cnf()`:
`simplified().negated_inwards().skolemised().cleaned().distributed()`,
with any exception along the pipeline propagating to the caller. -/
def Sentence.cnf (S : Sentence) : Option Sentence :=
  match S.simplified.negated_inwards false with
  | none => none
  | some t =>
    match t.skolemised [] 0 with
    | none => none
    | some (u, _) => u.cleaned.distributed

/-- C5: the distribution pass is a stub — on
`Or(Predicate("P"), And(Predicate("Q"), Predicate("R")))` the code raises
`TypeError` (`AssociativeCommutativeBinaryOperator.distributed` demands an
`otherType` argument and has no body) instead of returning a sentence with
no `Or`-over-`And`. -/
theorem distributed_stub_failure :
    (Sentence.or [.pred "P" [], .and [.pred "Q" [], .pred "R" []]]).distributed = none := rfl

/-- C8: `cnf()` is not total — on `ForAll(x, P(x))` the pipeline runs to
`distributed()`, which raises `AttributeError` (the recursive default calls
`.distributed()` on the predicate's `Variable` argument), no capture error
or unification failure involved. -/
theorem cnf_stub_failure : (Sentence.forAll xV (.pred "P" [.var xV])).cnf = none := by
  have h1 : (Sentence.forAll xV (.pred "P" [.var xV])).simplified =
      .forAll xV (.pred "P" [.var xV]) := by
    rw [simplified_forAll, simplified_pred]
  have h2 : (Sentence.forAll xV (.pred "P" [.var xV])).negated_inwards false =
      some (.forAll xV (.pred "P" [.var xV])) := rfl
  have h3 : (Sentence.forAll xV (.pred "P" [.var xV])).skolemised [] 0 =
      some (.pred "P" [.var xV], 0) := by
    rw [skolemised_forAll, skolemised_pred]
  simp only [Sentence.cnf, h1, h2, h3, cleaned_pred]
  rfl

theorem pmem_iff : ∀ {x : Sentence} {m : List Sentence},
    pmem x m = true ↔ ∃ y ∈ m, peq x y = true := by
  intro x m
  induction m with
  | nil => simp [pmem]
  | cons y ys ih => simp [pmem, ih]

theorem psub_iff : ∀ {l m : List Sentence},
    psub l m = true ↔ ∀ x ∈ l, pmem x m = true := by
  intro l m
  induction l with
  | nil => simp [psub]
  | cons s ss ih => simp [psub, ih]

/-- Python `==` on sentences is reflexive. -/
theorem peq_refl : ∀ S : Sentence, peq S S = true := by
  refine measureInd msize (fun S => peq S S = true) (fun S ih => ?_)
  cases S with
  | pred n args => simp [peq]
  | not s =>
    simp only [peq]
    exact ih s (by simp [msize])
  | and l =>
    simp only [peq, Bool.and_eq_true]
    have hsub : psub l l = true := by
      refine psub_iff.mpr (fun x hx => ?_)
      refine pmem_iff.mpr ⟨x, hx, ?_⟩
      exact ih x (by have := msize_le_of_mem hx; simp only [msize]; omega)
    exact ⟨hsub, hsub⟩
  | or l =>
    simp only [peq, Bool.and_eq_true]
    have hsub : psub l l = true := by
      refine psub_iff.mpr (fun x hx => ?_)
      refine pmem_iff.mpr ⟨x, hx, ?_⟩
      exact ih x (by have := msize_le_of_mem hx; simp only [msize]; omega)
    exact ⟨hsub, hsub⟩
  | implies a b =>
    simp only [peq, Bool.and_eq_true]
    exact ⟨ih a (by simp only [msize]; omega), ih b (by simp only [msize]; omega)⟩
  | iff a b =>
    have ha := ih a (by simp only [msize]; omega)
    have hb := ih b (by simp only [msize]; omega)
    by_cases hab : peq a b = true
    · simp [peq, hab, ha, hb]
    · simp only [peq]
      rw [if_neg hab, if_neg hab]
      simp [ha, hb]
  | forAll v b =>
    simp only [peq, Bool.and_eq_true]
    exact ⟨by simp, ih b (by simp [msize])⟩
  | exist v b =>
    simp only [peq, Bool.and_eq_true]
    exact ⟨by simp, ih b (by simp [msize])⟩

/-- Python `==` on sentences is symmetric. -/
theorem peq_symm : ∀ a b : Sentence, peq a b = peq b a := by
  have main : ∀ p : Sentence × Sentence, peq p.1 p.2 = peq p.2 p.1 := by
    refine measureInd (fun p : Sentence × Sentence => msize p.1 + msize p.2)
      (fun p : Sentence × Sentence => peq p.1 p.2 = peq p.2 p.1) (fun p ih => ?_)
    obtain ⟨a, b⟩ := p
    simp only
    cases a with
    | pred n args =>
      cases b <;> simp only [peq]
      rename_i m bs
      by_cases h1 : n = m
      · subst h1
        by_cases h2 : args = bs
        · subst h2; simp
        · simp [h2, Ne.symm h2]
      · simp [h1, Ne.symm h1]
    | not s =>
      cases b <;> simp only [peq]
      rename_i t
      exact ih (s, t) (by simp only [msize]; omega)
    | and l =>
      cases b <;> simp only [peq]
      exact Bool.and_comm _ _
    | or l =>
      cases b <;> simp only [peq]
      exact Bool.and_comm _ _
    | implies a1 a2 =>
      cases b <;> simp only [peq]
      rename_i b1 b2
      rw [ih (a1, b1) (by simp only [msize]; omega),
          ih (a2, b2) (by simp only [msize]; omega)]
    | iff a1 a2 =>
      cases b <;> simp only [peq]
      rename_i b1 b2
      have h11 := ih (a1, b1) (by simp only [msize]; omega)
      have h12 := ih (a1, b2) (by simp only [msize]; omega)
      have h21 := ih (a2, b1) (by simp only [msize]; omega)
      have h22 := ih (a2, b2) (by simp only [msize]; omega)
      by_cases ha : peq a1 a2 = true
      · by_cases hb : peq b1 b2 = true
        · simp only [ha, hb, if_true]
          rw [h11, h22]
        · have hb2 : peq b1 b2 = false := by revert hb; cases peq b1 b2 <;> simp
          simp [ha, hb2]
      · have ha2 : peq a1 a2 = false := by revert ha; cases peq a1 a2 <;> simp
        by_cases hb : peq b1 b2 = true
        · simp [ha2, hb]
        · have hb2 : peq b1 b2 = false := by revert hb; cases peq b1 b2 <;> simp
          simp only [ha2, hb2, Bool.false_eq_true, if_false]
          rw [h11, h12, h21, h22]
          cases peq b1 a1 <;> cases peq b2 a2 <;> cases peq b1 a2 <;> cases peq b2 a1 <;> simp
    | forAll v s =>
      cases b <;> simp only [peq]
      rename_i w t
      rw [ih (s, t) (by simp only [msize]; omega)]
      by_cases h : v = w
      · subst h; simp
      · simp [h, Ne.symm h]
    | exist v s =>
      cases b <;> simp only [peq]
      rename_i w t
      rw [ih (s, t) (by simp only [msize]; omega)]
      by_cases h : v = w
      · subst h; simp
      · simp [h, Ne.symm h]
  intro a b
  exact main (a, b)

/-- Models the content built by `IFF.__init__(formula1, formula2)`: the
`frozenset` of the two operands — except that when it collapses to one
element (the operands are `==`-equal), the constructor replaces it with the
ordered pair `(formula1, formula2)`, a 2-tuple. -/
def iffContent (a b : Sentence) : List Sentence :=
  let fs := pdedup [a, b]
  if fs.length = 1 then [a, b] else fs

theorem pdedup_pair (a b : Sentence) :
    pdedup [a, b] = if peq a b = true then [a] else [a, b] := by
  rw [pdedup]
  by_cases h : peq a b = true
  · simp [h, pdedup]
  · have h2 : peq a b = false := by revert h; cases peq a b <;> simp
    simp [h2, pdedup]

/-- C9, counterexample: constructing `IFF(A, A)` with identical operands
does not collapse to a singleton representation — the stored content is the
2-tuple `(A, A)`, which holds two elements, not one. -/
theorem iff_identical_operands_counterexample :
    (iffContent (.pred "P" []) (.pred "P" [])).length = 2 ∧
    ¬ (iffContent (.pred "P" []) (.pred "P" [])).length = 1 := by
  have h : iffContent (.pred "P" []) (.pred "P" []) = [.pred "P" [], .pred "P" []] := by
    rw [iffContent]
    simp only [pdedup_pair, peq_refl, if_true, List.length_singleton]
  rw [h]
  simp

/-- C9 (amended): constructing `IFF(A, B)` yields an order-insensitive
operand pair of exactly 2: the content always holds two elements (the
2-element `frozenset` for distinct operands, the ordered pair `(A, B)` for
`==`-equal operands — never a singleton), and `IFF(A, B) == IFF(B, A)`. -/
theorem iff_pair_of_two :
    ∀ a b : Sentence, (iffContent a b).length = 2 ∧ peq (.iff a b) (.iff b a) = true := by
  intro a b
  constructor
  · rw [iffContent]
    simp only [pdedup_pair]
    by_cases h : peq a b = true
    · simp [h]
    · have h2 : peq a b = false := by revert h; cases peq a b <;> simp
      simp [h2]
  · simp only [peq]
    by_cases h : peq a b = true
    · have hba : peq b a = true := by rw [peq_symm] at h; exact h
      simp [h, hba, peq_refl]
    · have h2 : peq a b = false := by revert h; cases peq a b <;> simp
      have hba : peq b a = false := by rw [peq_symm] at h2; exact h2
      simp [h2, hba, peq_refl]

/-- C10: sentence equality at binders is by `Variable` object identity, not
by display name: `ForAll(x, body) == ForAll(y, body)` (dually `Exists`)
holds exactly when `x` and `y` are the same `Variable` object. -/
theorem quantifier_equality_by_identity :
    ∀ (x y : Variable) (body : Sentence),
      (peq (.forAll x body) (.forAll y body) = true ↔ x = y) ∧
      (peq (.exist x body) (.exist y body) = true ↔ x = y) := by
  intro x y body
  constructor
  · simp only [peq, Bool.and_eq_true, decide_eq_true_eq]
    constructor
    · exact fun h => h.1
    · intro h
      exact ⟨h, peq_refl body⟩
  · simp only [peq, Bool.and_eq_true, decide_eq_true_eq]
    constructor
    · exact fun h => h.1
    · intro h
      exact ⟨h, peq_refl body⟩

/-- Witness for `quantifier_equality_by_identity`: two distinct `Variable`
objects sharing the display name `"x"` give unequal quantified sentences;
the same object gives equal ones. -/
theorem quantifier_equality_by_identity_witness :
    peq (.forAll ⟨0, "x"⟩ (.pred "P" [])) (.forAll ⟨1, "x"⟩ (.pred "P" [])) = false ∧
    peq (.forAll ⟨0, "x"⟩ (.pred "P" [])) (.forAll ⟨0, "x"⟩ (.pred "P" [])) = true := by
  constructor
  · have h := (quantifier_equality_by_identity ⟨0, "x"⟩ ⟨1, "x"⟩ (.pred "P" [])).1
    cases hv : peq (.forAll ⟨0, "x"⟩ (.pred "P" [])) (.forAll ⟨1, "x"⟩ (.pred "P" [])) with
    | false => rfl
    | true => exact absurd (h.mp hv) (by decide)
  · exact (quantifier_equality_by_identity ⟨0, "x"⟩ ⟨0, "x"⟩ (.pred "P" [])).1.mpr rfl

/-- Python `==` on sentences is transitive. -/
theorem peq_trans : ∀ a b c : Sentence, peq a b = true → peq b c = true → peq a c = true := by
  have main : ∀ t : Sentence × Sentence × Sentence,
      peq t.1 t.2.1 = true → peq t.2.1 t.2.2 = true → peq t.1 t.2.2 = true := by
    refine measureInd (fun t : Sentence × Sentence × Sentence =>
        msize t.1 + msize t.2.1 + msize t.2.2)
      (fun t => peq t.1 t.2.1 = true → peq t.2.1 t.2.2 = true → peq t.1 t.2.2 = true)
      (fun t ih => ?_)
    obtain ⟨a, b, c⟩ := t
    intro hab hbc
    simp only at hab hbc ih ⊢
    cases a <;> cases b <;> try (simp only [peq, Bool.false_eq_true] at hab)
    all_goals (cases c <;> try (simp only [peq, Bool.false_eq_true] at hbc))
    · rename_i n args m bs k cs
      simp only [peq, Bool.and_eq_true, decide_eq_true_eq] at hab hbc ⊢
      exact ⟨hab.1.trans hbc.1, hab.2.trans hbc.2⟩
    · rename_i s u w
      simp only [peq] at hab hbc ⊢
      exact ih (s, u, w) (by simp only [msize]; omega) hab hbc
    · rename_i l m k
      simp only [peq, Bool.and_eq_true] at hab hbc ⊢
      obtain ⟨h1, h2⟩ := hab
      obtain ⟨h3, h4⟩ := hbc
      constructor
      · refine psub_iff.mpr (fun x hx => ?_)
        obtain ⟨y, hy, hxy⟩ := pmem_iff.mp (psub_iff.mp h1 x hx)
        obtain ⟨z, hz, hyz⟩ := pmem_iff.mp (psub_iff.mp h3 y hy)
        refine pmem_iff.mpr ⟨z, hz, ?_⟩
        refine ih (x, y, z) ?_ hxy hyz
        have := msize_le_of_mem hx
        have := msize_le_of_mem hy
        have := msize_le_of_mem hz
        simp only [msize]
        omega
      · refine psub_iff.mpr (fun x hx => ?_)
        obtain ⟨y, hy, hxy⟩ := pmem_iff.mp (psub_iff.mp h4 x hx)
        obtain ⟨z, hz, hyz⟩ := pmem_iff.mp (psub_iff.mp h2 y hy)
        refine pmem_iff.mpr ⟨z, hz, ?_⟩
        refine ih (x, y, z) ?_ hxy hyz
        have := msize_le_of_mem hx
        have := msize_le_of_mem hy
        have := msize_le_of_mem hz
        simp only [msize]
        omega
    · rename_i l m k
      simp only [peq, Bool.and_eq_true] at hab hbc ⊢
      obtain ⟨h1, h2⟩ := hab
      obtain ⟨h3, h4⟩ := hbc
      constructor
      · refine psub_iff.mpr (fun x hx => ?_)
        obtain ⟨y, hy, hxy⟩ := pmem_iff.mp (psub_iff.mp h1 x hx)
        obtain ⟨z, hz, hyz⟩ := pmem_iff.mp (psub_iff.mp h3 y hy)
        refine pmem_iff.mpr ⟨z, hz, ?_⟩
        refine ih (x, y, z) ?_ hxy hyz
        have := msize_le_of_mem hx
        have := msize_le_of_mem hy
        have := msize_le_of_mem hz
        simp only [msize]
        omega
      · refine psub_iff.mpr (fun x hx => ?_)
        obtain ⟨y, hy, hxy⟩ := pmem_iff.mp (psub_iff.mp h4 x hx)
        obtain ⟨z, hz, hyz⟩ := pmem_iff.mp (psub_iff.mp h2 y hy)
        refine pmem_iff.mpr ⟨z, hz, ?_⟩
        refine ih (x, y, z) ?_ hxy hyz
        have := msize_le_of_mem hx
        have := msize_le_of_mem hy
        have := msize_le_of_mem hz
        simp only [msize]
        omega
    · rename_i a1 a2 b1 b2 c1 c2
      simp only [peq, Bool.and_eq_true] at hab hbc ⊢
      obtain ⟨h1, h2⟩ := hab
      obtain ⟨h3, h4⟩ := hbc
      exact ⟨ih (a1, b1, c1) (by simp only [msize]; omega) h1 h3,
             ih (a2, b2, c2) (by simp only [msize]; omega) h2 h4⟩
    · rename_i a1 a2 b1 b2 c1 c2
      simp only [peq] at hab hbc ⊢
      by_cases pa : peq a1 a2 = true
      · rw [if_pos pa] at hab ⊢
        simp only [Bool.and_eq_true] at hab
        obtain ⟨⟨pb, h1⟩, h2⟩ := hab
        rw [if_pos pb] at hbc
        simp only [Bool.and_eq_true] at hbc
        obtain ⟨⟨pc, h3⟩, h4⟩ := hbc
        simp only [Bool.and_eq_true]
        exact ⟨⟨pc, ih (a1, b1, c1) (by simp only [msize]; omega) h1 h3⟩,
               ih (a2, b2, c2) (by simp only [msize]; omega) h2 h4⟩
      · have pa2 : peq a1 a2 = false := by revert pa; cases peq a1 a2 <;> simp
        rw [if_neg pa] at hab ⊢
        by_cases pb : peq b1 b2 = true
        · rw [if_pos pb] at hab
          simp at hab
        · have pb2 : peq b1 b2 = false := by revert pb; cases peq b1 b2 <;> simp
          rw [if_neg pb] at hab
          rw [if_neg pb] at hbc
          by_cases pc : peq c1 c2 = true
          · rw [if_pos pc] at hbc
            simp at hbc
          · rw [if_neg pc] at hbc ⊢
            simp only [Bool.or_eq_true, Bool.and_eq_true] at hab hbc ⊢
            rcases hab with ⟨e11, e22⟩ | ⟨e12, e21⟩
            · rcases hbc with ⟨f11, f22⟩ | ⟨f12, f21⟩
              · exact Or.inl ⟨ih (a1, b1, c1) (by simp only [msize]; omega) e11 f11,
                              ih (a2, b2, c2) (by simp only [msize]; omega) e22 f22⟩
              · exact Or.inr ⟨ih (a1, b1, c2) (by simp only [msize]; omega) e11 f12,
                              ih (a2, b2, c1) (by simp only [msize]; omega) e22 f21⟩
            · rcases hbc with ⟨f11, f22⟩ | ⟨f12, f21⟩
              · exact Or.inr ⟨ih (a1, b2, c2) (by simp only [msize]; omega) e12 f22,
                              ih (a2, b1, c1) (by simp only [msize]; omega) e21 f11⟩
              · exact Or.inl ⟨ih (a1, b2, c1) (by simp only [msize]; omega) e12 f21,
                              ih (a2, b1, c2) (by simp only [msize]; omega) e21 f12⟩
    · rename_i v s w u x2 r
      simp only [peq, Bool.and_eq_true, decide_eq_true_eq] at hab hbc ⊢
      exact ⟨hab.1.trans hbc.1, ih (s, u, r) (by simp only [msize]; omega) hab.2 hbc.2⟩
    · rename_i v s w u x2 r
      simp only [peq, Bool.and_eq_true, decide_eq_true_eq] at hab hbc ⊢
      exact ⟨hab.1.trans hbc.1, ih (s, u, r) (by simp only [msize]; omega) hab.2 hbc.2⟩
  intro a b c hab hbc
  exact main (a, b, c) hab hbc

theorem mem_free_variablesL : ∀ {l : List Sentence} {v : Variable},
    v ∈ Sentence.free_variablesL l ↔ ∃ x ∈ l, v ∈ x.free_variables := by
  intro l v
  induction l with
  | nil => simp [Sentence.free_variablesL]
  | cons s ss ih => simp [Sentence.free_variablesL, ih]

/-- `==`-equal sentences have the same free variables (`frozenset`
deduplication merges only such sentences). -/
theorem peq_free : ∀ a b : Sentence, peq a b = true →
    a.free_variables = b.free_variables := by
  have main : ∀ t : Sentence × Sentence, peq t.1 t.2 = true →
      t.1.free_variables = t.2.free_variables := by
    refine measureInd (fun t : Sentence × Sentence => msize t.1 + msize t.2)
      (fun t => peq t.1 t.2 = true → t.1.free_variables = t.2.free_variables)
      (fun t ih => ?_)
    obtain ⟨a, b⟩ := t
    intro hab
    simp only at hab ih ⊢
    cases a <;> cases b <;> try (simp only [peq, Bool.false_eq_true] at hab)
    · rename_i n args m bs
      simp only [peq, Bool.and_eq_true, decide_eq_true_eq] at hab
      rw [hab.2]
      simp [Sentence.free_variables]
    · rename_i s u
      simp only [Sentence.free_variables]
      exact ih (s, u) (by simp only [msize]; omega) hab
    · rename_i l m
      simp only [peq, Bool.and_eq_true] at hab
      obtain ⟨h1, h2⟩ := hab
      simp only [Sentence.free_variables]
      apply Finset.Subset.antisymm
      · intro v hv
        obtain ⟨x, hx, hvx⟩ := mem_free_variablesL.mp hv
        obtain ⟨y, hy, hxy⟩ := pmem_iff.mp (psub_iff.mp h1 x hx)
        refine mem_free_variablesL.mpr ⟨y, hy, ?_⟩
        rw [← ih (x, y) (by
          have := msize_le_of_mem hx
          have := msize_le_of_mem hy
          simp only [msize]; omega) hxy]
        exact hvx
      · intro v hv
        obtain ⟨x, hx, hvx⟩ := mem_free_variablesL.mp hv
        obtain ⟨y, hy, hxy⟩ := pmem_iff.mp (psub_iff.mp h2 x hx)
        refine mem_free_variablesL.mpr ⟨y, hy, ?_⟩
        rw [← ih (x, y) (by
          have := msize_le_of_mem hx
          have := msize_le_of_mem hy
          simp only [msize]; omega) hxy]
        exact hvx
    · rename_i l m
      simp only [peq, Bool.and_eq_true] at hab
      obtain ⟨h1, h2⟩ := hab
      simp only [Sentence.free_variables]
      apply Finset.Subset.antisymm
      · intro v hv
        obtain ⟨x, hx, hvx⟩ := mem_free_variablesL.mp hv
        obtain ⟨y, hy, hxy⟩ := pmem_iff.mp (psub_iff.mp h1 x hx)
        refine mem_free_variablesL.mpr ⟨y, hy, ?_⟩
        rw [← ih (x, y) (by
          have := msize_le_of_mem hx
          have := msize_le_of_mem hy
          simp only [msize]; omega) hxy]
        exact hvx
      · intro v hv
        obtain ⟨x, hx, hvx⟩ := mem_free_variablesL.mp hv
        obtain ⟨y, hy, hxy⟩ := pmem_iff.mp (psub_iff.mp h2 x hx)
        refine mem_free_variablesL.mpr ⟨y, hy, ?_⟩
        rw [← ih (x, y) (by
          have := msize_le_of_mem hx
          have := msize_le_of_mem hy
          simp only [msize]; omega) hxy]
        exact hvx
    · rename_i a1 a2 b1 b2
      simp only [peq, Bool.and_eq_true] at hab
      simp only [Sentence.free_variables]
      obtain ⟨h1, h2⟩ := hab
      rw [ih (a1, b1) (by simp only [msize]; omega) h1,
          ih (a2, b2) (by simp only [msize]; omega) h2]
    · rename_i a1 a2 b1 b2
      simp only [Sentence.free_variables]
      by_cases pa : peq a1 a2 = true
      · rw [if_pos pa] at hab
        simp only [Bool.and_eq_true] at hab
        obtain ⟨⟨pb, h1⟩, h2⟩ := hab
        rw [ih (a1, b1) (by simp only [msize]; omega) h1,
            ih (a2, b2) (by simp only [msize]; omega) h2]
      · rw [if_neg pa] at hab
        by_cases pb : peq b1 b2 = true
        · rw [if_pos pb] at hab
          simp at hab
        · rw [if_neg pb] at hab
          simp only [Bool.or_eq_true, Bool.and_eq_true] at hab
          rcases hab with ⟨h1, h2⟩ | ⟨h1, h2⟩
          · rw [ih (a1, b1) (by simp only [msize]; omega) h1,
                ih (a2, b2) (by simp only [msize]; omega) h2]
          · rw [ih (a1, b2) (by simp only [msize]; omega) h1,
                ih (a2, b1) (by simp only [msize]; omega) h2]
            exact Finset.union_comm _ _
    · rename_i v s w u
      simp only [peq, Bool.and_eq_true, decide_eq_true_eq] at hab
      simp only [Sentence.free_variables]
      rw [hab.1, ih (s, u) (by simp only [msize]; omega) hab.2]
    · rename_i v s w u
      simp only [peq, Bool.and_eq_true, decide_eq_true_eq] at hab
      simp only [Sentence.free_variables]
      rw [hab.1, ih (s, u) (by simp only [msize]; omega) hab.2]
  intro a b hab
  exact main (a, b) hab

theorem msizeL_cleanedL_le (l : List Sentence) : msizeL (cleanedL l) ≤ msizeL l := by
  simp only [cleanedL]
  exact (cleanedLS l).2

theorem cleanedL_eq_map : ∀ l : List Sentence, cleanedL l = l.map Sentence.cleaned := by
  intro l
  induction l with
  | nil => simp [cleanedL_nil]
  | cons s ss ih => simp [cleanedL_cons, ih]

theorem freeL_filter_peq (y : Sentence) : ∀ (ys : List Sentence),
    Sentence.free_variablesL (ys.filter (fun z => !(peq y z))) ∪ y.free_variables =
      Sentence.free_variablesL ys ∪ y.free_variables := by
  intro ys
  ext v
  simp only [Finset.mem_union, mem_free_variablesL]
  constructor
  · rintro (⟨x, hx, hvx⟩ | hv)
    · exact Or.inl ⟨x, List.mem_of_mem_filter hx, hvx⟩
    · exact Or.inr hv
  · rintro (⟨x, hx, hvx⟩ | hv)
    · by_cases hk : peq y x = true
      · refine Or.inr ?_
        rw [peq_free y x hk]
        exact hvx
      · have hk2 : (!peq y x) = true := by revert hk; cases peq y x <;> simp
        exact Or.inl ⟨x, List.mem_filter.mpr ⟨hx, hk2⟩, hvx⟩
    · exact Or.inr hv

theorem freeL_pdedup : ∀ l : List Sentence,
    Sentence.free_variablesL (pdedup l) = Sentence.free_variablesL l := by
  have key : ∀ (n : Nat) (l : List Sentence), l.length ≤ n →
      Sentence.free_variablesL (pdedup l) = Sentence.free_variablesL l := by
    intro n
    induction n with
    | zero =>
      intro l hl
      cases l with
      | nil => simp [pdedup]
      | cons s ss => simp at hl
    | succ n ih =>
      intro l hl
      cases l with
      | nil => simp [pdedup]
      | cons y ys =>
        rw [pdedup]
        simp only [Sentence.free_variablesL]
        have h1 : (ys.filter (fun z => !(peq y z))).length ≤ n := by
          have := List.length_filter_le (fun z => !(peq y z)) ys
          simp at hl
          omega
        rw [ih _ h1]
        have h2 := freeL_filter_peq y ys
        rw [Finset.union_comm y.free_variables (Sentence.free_variablesL _),
            Finset.union_comm y.free_variables (Sentence.free_variablesL ys)]
        exact h2
  intro l
  exact key l.length l (Nat.le_refl _)

theorem freeL_append : ∀ (a b : List Sentence),
    Sentence.free_variablesL (a ++ b) =
      Sentence.free_variablesL a ∪ Sentence.free_variablesL b := by
  intro a b
  induction a with
  | nil => simp [Sentence.free_variablesL]
  | cons s ss ih =>
    show Sentence.free_variablesL (s :: (ss ++ b)) = _
    simp only [Sentence.free_variablesL, ih]
    rw [Finset.union_assoc]

theorem freeL_flattenAnd : ∀ l : List Sentence,
    Sentence.free_variablesL (flattenAnd l) = Sentence.free_variablesL l := by
  intro l
  induction l with
  | nil => simp [flattenAnd]
  | cons c rest ih =>
    cases c with
    | and m =>
      simp only [flattenAnd, freeL_append, ih, Sentence.free_variablesL, Sentence.free_variables]
    | pred n args => simp only [flattenAnd, Sentence.free_variablesL, ih]
    | not s => simp only [flattenAnd, Sentence.free_variablesL, ih]
    | or m => simp only [flattenAnd, Sentence.free_variablesL, ih]
    | implies a b => simp only [flattenAnd, Sentence.free_variablesL, ih]
    | iff a b => simp only [flattenAnd, Sentence.free_variablesL, ih]
    | forAll v b => simp only [flattenAnd, Sentence.free_variablesL, ih]
    | exist v b => simp only [flattenAnd, Sentence.free_variablesL, ih]

theorem freeL_flattenOr : ∀ l : List Sentence,
    Sentence.free_variablesL (flattenOr l) = Sentence.free_variablesL l := by
  intro l
  induction l with
  | nil => simp [flattenOr]
  | cons c rest ih =>
    cases c with
    | or m =>
      simp only [flattenOr, freeL_append, ih, Sentence.free_variablesL, Sentence.free_variables]
    | pred n args => simp only [flattenOr, Sentence.free_variablesL, ih]
    | not s => simp only [flattenOr, Sentence.free_variablesL, ih]
    | and m => simp only [flattenOr, Sentence.free_variablesL, ih]
    | implies a b => simp only [flattenOr, Sentence.free_variablesL, ih]
    | iff a b => simp only [flattenOr, Sentence.free_variablesL, ih]
    | forAll v b => simp only [flattenOr, Sentence.free_variablesL, ih]
    | exist v b => simp only [flattenOr, Sentence.free_variablesL, ih]

/-- `cleaned` preserves the free variables. -/
theorem cleaned_free : ∀ S : Sentence, S.cleaned.free_variables = S.free_variables := by
  refine measureInd msize (fun S => S.cleaned.free_variables = S.free_variables)
    (fun S ih => ?_)
  dsimp only at ih ⊢
  have hmapfree : ∀ (B : Nat) (ll : List Sentence), msizeL ll ≤ B →
      (∀ T : Sentence, msize T < 1 + B → T.cleaned.free_variables = T.free_variables) →
      Sentence.free_variablesL (cleanedL ll) = Sentence.free_variablesL ll := by
    intro B ll
    induction ll with
    | nil => intro _ _; simp [cleanedL_nil]
    | cons y ys ihy =>
      intro hsz hT
      simp only [cleanedL_cons, Sentence.free_variablesL]
      simp only [msizeL] at hsz
      have h1 := hT y (by omega)
      have h2 := ihy (by omega) hT
      rw [h1, h2]
  cases S with
  | pred n args => rw [cleaned_pred]
  | not s =>
    rw [cleaned_not]
    simp only [Sentence.free_variables]
    exact ih s (by simp [msize])
  | implies a b =>
    rw [cleaned_implies]
    simp only [Sentence.free_variables]
    rw [ih a (by simp only [msize]; omega), ih b (by simp only [msize]; omega)]
  | iff a b =>
    rw [cleaned_iff_eq]
    simp only [Sentence.free_variables]
    rw [ih a (by simp only [msize]; omega), ih b (by simp only [msize]; omega)]
  | forAll v b =>
    by_cases hv : v ∈ b.free_variables
    · rw [cleaned_forAll_mem v b hv]
      simp only [Sentence.free_variables]
      rw [ih b (by simp [msize])]
    · rw [cleaned_forAll_not_mem v b hv]
      simp only [Sentence.free_variables]
      rw [ih b (by simp [msize])]
      exact (Finset.sdiff_eq_self_iff_disjoint.mpr (by simpa using hv)).symm
  | exist v b =>
    by_cases hv : v ∈ b.free_variables
    · rw [cleaned_exist_mem v b hv]
      simp only [Sentence.free_variables]
      rw [ih b (by simp [msize])]
    · rw [cleaned_exist_not_mem v b hv]
      simp only [Sentence.free_variables]
      rw [ih b (by simp [msize])]
      exact (Finset.sdiff_eq_self_iff_disjoint.mpr (by simpa using hv)).symm
  | and l =>
    have hfl : Sentence.free_variablesL (cleanedL l) = Sentence.free_variablesL l :=
      hmapfree (msizeL l) l (Nat.le_refl _)
        (fun T hT => ih T (by simp only [msize]; omega))
    by_cases hsing : ∃ e, pdedup (cleanedL l) = [e]
    · obtain ⟨e, he⟩ := hsing
      rw [cleaned_and_single l e he]
      have hmem : msize e ≤ msizeL l := by
        have h1 : msize e ≤ msizeL (pdedup (cleanedL l)) := by rw [he]; simp [msizeL]
        have h2 := msizeL_pdedup_le (cleanedL l)
        have h3 := msizeL_cleanedL_le l
        omega
      rw [ih e (by simp only [msize]; omega)]
      have h4 : Sentence.free_variablesL (pdedup (cleanedL l)) = e.free_variables := by
        rw [he]
        simp [Sentence.free_variablesL]
      rw [← h4, freeL_pdedup, hfl]
      simp [Sentence.free_variables]
    · rw [cleaned_and_multi l (fun e he => hsing ⟨e, he⟩)]
      simp only [Sentence.free_variables]
      rw [freeL_pdedup, freeL_flattenAnd, freeL_pdedup, hfl]
  | or l =>
    have hfl : Sentence.free_variablesL (cleanedL l) = Sentence.free_variablesL l :=
      hmapfree (msizeL l) l (Nat.le_refl _)
        (fun T hT => ih T (by simp only [msize]; omega))
    by_cases hsing : ∃ e, pdedup (cleanedL l) = [e]
    · obtain ⟨e, he⟩ := hsing
      rw [cleaned_or_single l e he]
      have hmem : msize e ≤ msizeL l := by
        have h1 : msize e ≤ msizeL (pdedup (cleanedL l)) := by rw [he]; simp [msizeL]
        have h2 := msizeL_pdedup_le (cleanedL l)
        have h3 := msizeL_cleanedL_le l
        omega
      rw [ih e (by simp only [msize]; omega)]
      have h4 : Sentence.free_variablesL (pdedup (cleanedL l)) = e.free_variables := by
        rw [he]
        simp [Sentence.free_variablesL]
      rw [← h4, freeL_pdedup, hfl]
      simp [Sentence.free_variables]
    · rw [cleaned_or_multi l (fun e he => hsing ⟨e, he⟩)]
      simp only [Sentence.free_variables]
      rw [freeL_pdedup, freeL_flattenOr, freeL_pdedup, hfl]

/-- The sentence is an `And` node. -/
def isAnd : Sentence → Bool
  | .and _ => true
  | _ => false

/-- The sentence is an `Or` node. -/
def isOr : Sentence → Bool
  | .or _ => true
  | _ => false

mutual
/-- Python-constructible sentences: every `And`/`Or` constructor call takes
at least one operand, so every `And`/`Or` content is nonempty. -/
def wfS : Sentence → Bool
  | .pred _ _ => true
  | .not s => wfS s
  | .and l => !(l.isEmpty) && wfL l
  | .or l => !(l.isEmpty) && wfL l
  | .implies a b => wfS a && wfS b
  | .iff a b => wfS a && wfS b
  | .forAll _ b => wfS b
  | .exist _ b => wfS b

/-- List version of `wfS`. -/
def wfL : List Sentence → Bool
  | [] => true
  | s :: ss => wfS s && wfL ss
end

theorem wfL_iff : ∀ {l : List Sentence}, wfL l = true ↔ ∀ x ∈ l, wfS x = true := by
  intro l
  induction l with
  | nil => simp [wfL]
  | cons s ss ih => simp [wfL, ih]

theorem pdedup_pairwise : ∀ l : List Sentence,
    List.Pairwise (fun x y => peq x y = false) (pdedup l) := by
  have key : ∀ (n : Nat) (l : List Sentence), l.length ≤ n →
      List.Pairwise (fun x y => peq x y = false) (pdedup l) := by
    intro n
    induction n with
    | zero =>
      intro l hl
      cases l with
      | nil => simp [pdedup]
      | cons s ss => simp at hl
    | succ n ih =>
      intro l hl
      cases l with
      | nil => simp [pdedup]
      | cons y ys =>
        rw [pdedup]
        refine List.Pairwise.cons ?_ ?_
        · intro x hx
          have hx2 := mem_of_mem_pdedup _ x hx
          have := (List.mem_filter.mp hx2).2
          revert this
          cases peq y x <;> simp
        · refine ih _ ?_
          have := List.length_filter_le (fun z => !(peq y z)) ys
          simp at hl
          omega
  intro l
  exact key l.length l (Nat.le_refl _)

theorem pairwise_pdedup_eq_self : ∀ {l : List Sentence},
    List.Pairwise (fun x y => peq x y = false) l → pdedup l = l := by
  intro l h
  induction l with
  | nil => simp [pdedup]
  | cons y ys ih =>
    rw [pdedup]
    have h1 := List.pairwise_cons.mp h
    have hf : ys.filter (fun z => !(peq y z)) = ys := by
      refine List.filter_eq_self.mpr (fun x hx => ?_)
      have := h1.1 x hx
      rw [this]
      rfl
    rw [hf, ih h1.2]

theorem pdedup_idem (l : List Sentence) : pdedup (pdedup l) = pdedup l :=
  pairwise_pdedup_eq_self (pdedup_pairwise l)

theorem pdedup_eq_nil : ∀ {l : List Sentence}, pdedup l = [] → l = [] := by
  intro l h
  cases l with
  | nil => rfl
  | cons y ys => rw [pdedup] at h; cases h

theorem pdedup_singleton_all : ∀ {l : List Sentence} {h0 : Sentence},
    pdedup l = [h0] → ∀ x ∈ l, peq h0 x = true := by
  intro l h0 hp x hx
  cases l with
  | nil => cases hx
  | cons y ys =>
    rw [pdedup] at hp
    have hy : y = h0 := by
      have := List.head_eq_of_cons_eq hp
      exact this
    have htail : pdedup (ys.filter (fun z => !(peq y z))) = [] :=
      List.tail_eq_of_cons_eq hp
    have hfil : ys.filter (fun z => !(peq y z)) = [] := pdedup_eq_nil htail
    rcases List.mem_cons.mp hx with he | he
    · rw [← hy, he]
      exact peq_refl y
    · have hnp : ¬ ((fun z => !(peq y z)) x = true) := by
        intro hc
        have hmem : x ∈ ys.filter (fun z => !(peq y z)) := List.mem_filter.mpr ⟨he, hc⟩
        rw [hfil] at hmem
        cases hmem
      rw [← hy]
      cases hv : peq y x with
      | true => rfl
      | false =>
        exfalso
        apply hnp
        simp only [hv]
        rfl

theorem pdedup_length_ne_one {L : List Sentence} {x1 x2 : Sentence}
    (h1 : x1 ∈ L) (h2 : x2 ∈ L) (hne : peq x1 x2 = false) :
    (pdedup L).length ≠ 1 := by
  intro hlen
  obtain ⟨h0, hh⟩ : ∃ h0, pdedup L = [h0] := by
    cases hL : pdedup L with
    | nil => rw [hL] at hlen; cases hlen
    | cons a as =>
      cases as with
      | nil => exact ⟨a, rfl⟩
      | cons b bs => rw [hL] at hlen; simp at hlen
  have ha := pdedup_singleton_all hh x1 h1
  have hb := pdedup_singleton_all hh x2 h2
  have : peq x1 x2 = true := by
    refine peq_trans x1 h0 x2 ?_ hb
    rw [peq_symm]
    exact ha
  rw [this] at hne
  cases hne

theorem flattenAnd_cons_and (m : List Sentence) (rest : List Sentence) :
    flattenAnd (.and m :: rest) = m ++ flattenAnd rest := rfl

theorem flattenAnd_cons_other {c : Sentence} (rest : List Sentence) (h : isAnd c = false) :
    flattenAnd (c :: rest) = c :: flattenAnd rest := by
  cases c <;> first | rfl | simp [isAnd] at h

theorem flattenOr_cons_or (m : List Sentence) (rest : List Sentence) :
    flattenOr (.or m :: rest) = m ++ flattenOr rest := rfl

theorem flattenOr_cons_other {c : Sentence} (rest : List Sentence) (h : isOr c = false) :
    flattenOr (c :: rest) = c :: flattenOr rest := by
  cases c <;> first | rfl | simp [isOr] at h

theorem flattenAnd_eq_self : ∀ {l : List Sentence},
    (∀ x ∈ l, isAnd x = false) → flattenAnd l = l := by
  intro l h
  induction l with
  | nil => rfl
  | cons c rest ih =>
    rw [flattenAnd_cons_other rest (h c (List.mem_cons_self _ _)),
        ih (fun x hx => h x (List.mem_cons_of_mem _ hx))]

theorem flattenOr_eq_self : ∀ {l : List Sentence},
    (∀ x ∈ l, isOr x = false) → flattenOr l = l := by
  intro l h
  induction l with
  | nil => rfl
  | cons c rest ih =>
    rw [flattenOr_cons_other rest (h c (List.mem_cons_self _ _)),
        ih (fun x hx => h x (List.mem_cons_of_mem _ hx))]

theorem mem_flattenAnd : ∀ {l : List Sentence} {x : Sentence}, x ∈ flattenAnd l →
    (∃ m, Sentence.and m ∈ l ∧ x ∈ m) ∨ (x ∈ l ∧ isAnd x = false) := by
  intro l
  induction l with
  | nil => intro x hx; cases hx
  | cons c rest ih =>
    intro x hx
    by_cases hc : isAnd c = true
    · obtain ⟨m, hm⟩ : ∃ m, c = .and m := by
        cases c <;> simp [isAnd] at hc ⊢
      subst hm
      rw [flattenAnd_cons_and] at hx
      rcases List.mem_append.mp hx with h1 | h1
      · exact Or.inl ⟨m, List.mem_cons_self _ _, h1⟩
      · rcases ih h1 with ⟨m2, hm2, hxm2⟩ | ⟨hxr, hxa⟩
        · exact Or.inl ⟨m2, List.mem_cons_of_mem _ hm2, hxm2⟩
        · exact Or.inr ⟨List.mem_cons_of_mem _ hxr, hxa⟩
    · have hc2 : isAnd c = false := by revert hc; cases isAnd c <;> simp
      rw [flattenAnd_cons_other rest hc2] at hx
      rcases List.mem_cons.mp hx with h1 | h1
      · exact Or.inr ⟨h1 ▸ List.mem_cons_self _ _, h1 ▸ hc2⟩
      · rcases ih h1 with ⟨m2, hm2, hxm2⟩ | ⟨hxr, hxa⟩
        · exact Or.inl ⟨m2, List.mem_cons_of_mem _ hm2, hxm2⟩
        · exact Or.inr ⟨List.mem_cons_of_mem _ hxr, hxa⟩

theorem mem_flattenOr : ∀ {l : List Sentence} {x : Sentence}, x ∈ flattenOr l →
    (∃ m, Sentence.or m ∈ l ∧ x ∈ m) ∨ (x ∈ l ∧ isOr x = false) := by
  intro l
  induction l with
  | nil => intro x hx; cases hx
  | cons c rest ih =>
    intro x hx
    by_cases hc : isOr c = true
    · obtain ⟨m, hm⟩ : ∃ m, c = .or m := by
        cases c <;> simp [isOr] at hc ⊢
      subst hm
      rw [flattenOr_cons_or] at hx
      rcases List.mem_append.mp hx with h1 | h1
      · exact Or.inl ⟨m, List.mem_cons_self _ _, h1⟩
      · rcases ih h1 with ⟨m2, hm2, hxm2⟩ | ⟨hxr, hxa⟩
        · exact Or.inl ⟨m2, List.mem_cons_of_mem _ hm2, hxm2⟩
        · exact Or.inr ⟨List.mem_cons_of_mem _ hxr, hxa⟩
    · have hc2 : isOr c = false := by revert hc; cases isOr c <;> simp
      rw [flattenOr_cons_other rest hc2] at hx
      rcases List.mem_cons.mp hx with h1 | h1
      · exact Or.inr ⟨h1 ▸ List.mem_cons_self _ _, h1 ▸ hc2⟩
      · rcases ih h1 with ⟨m2, hm2, hxm2⟩ | ⟨hxr, hxa⟩
        · exact Or.inl ⟨m2, List.mem_cons_of_mem _ hm2, hxm2⟩
        · exact Or.inr ⟨List.mem_cons_of_mem _ hxr, hxa⟩

theorem and_content_subset_flattenAnd : ∀ {l m : List Sentence},
    Sentence.and m ∈ l → ∀ {x}, x ∈ m → x ∈ flattenAnd l := by
  intro l
  induction l with
  | nil => intro m hm; cases hm
  | cons c rest ih =>
    intro m hm x hx
    rcases List.mem_cons.mp hm with h1 | h1
    · subst h1
      rw [flattenAnd_cons_and]
      exact List.mem_append.mpr (Or.inl hx)
    · by_cases hc : isAnd c = true
      · obtain ⟨m2, hm2⟩ : ∃ m2, c = .and m2 := by
          cases c <;> simp [isAnd] at hc ⊢
        subst hm2
        rw [flattenAnd_cons_and]
        exact List.mem_append.mpr (Or.inr (ih h1 hx))
      · have hc2 : isAnd c = false := by revert hc; cases isAnd c <;> simp
        rw [flattenAnd_cons_other rest hc2]
        exact List.mem_cons_of_mem _ (ih h1 hx)

theorem or_content_subset_flattenOr : ∀ {l m : List Sentence},
    Sentence.or m ∈ l → ∀ {x}, x ∈ m → x ∈ flattenOr l := by
  intro l
  induction l with
  | nil => intro m hm; cases hm
  | cons c rest ih =>
    intro m hm x hx
    rcases List.mem_cons.mp hm with h1 | h1
    · subst h1
      rw [flattenOr_cons_or]
      exact List.mem_append.mpr (Or.inl hx)
    · by_cases hc : isOr c = true
      · obtain ⟨m2, hm2⟩ : ∃ m2, c = .or m2 := by
          cases c <;> simp [isOr] at hc ⊢
        subst hm2
        rw [flattenOr_cons_or]
        exact List.mem_append.mpr (Or.inr (ih h1 hx))
      · have hc2 : isOr c = false := by revert hc; cases isOr c <;> simp
        rw [flattenOr_cons_other rest hc2]
        exact List.mem_cons_of_mem _ (ih h1 hx)

theorem mem_flattenAnd_of_mem : ∀ {l : List Sentence} {x : Sentence},
    x ∈ l → isAnd x = false → x ∈ flattenAnd l := by
  intro l
  induction l with
  | nil => intro x hx; cases hx
  | cons c rest ih =>
    intro x hx hxa
    rcases List.mem_cons.mp hx with h1 | h1
    · subst h1
      rw [flattenAnd_cons_other rest hxa]
      exact List.mem_cons_self _ _
    · by_cases hc : isAnd c = true
      · obtain ⟨m2, hm2⟩ : ∃ m2, c = .and m2 := by
          cases c <;> simp [isAnd] at hc ⊢
        subst hm2
        rw [flattenAnd_cons_and]
        exact List.mem_append.mpr (Or.inr (ih h1 hxa))
      · have hc2 : isAnd c = false := by revert hc; cases isAnd c <;> simp
        rw [flattenAnd_cons_other rest hc2]
        exact List.mem_cons_of_mem _ (ih h1 hxa)

theorem mem_flattenOr_of_mem : ∀ {l : List Sentence} {x : Sentence},
    x ∈ l → isOr x = false → x ∈ flattenOr l := by
  intro l
  induction l with
  | nil => intro x hx; cases hx
  | cons c rest ih =>
    intro x hx hxa
    rcases List.mem_cons.mp hx with h1 | h1
    · subst h1
      rw [flattenOr_cons_other rest hxa]
      exact List.mem_cons_self _ _
    · by_cases hc : isOr c = true
      · obtain ⟨m2, hm2⟩ : ∃ m2, c = .or m2 := by
          cases c <;> simp [isOr] at hc ⊢
        subst hm2
        rw [flattenOr_cons_or]
        exact List.mem_append.mpr (Or.inr (ih h1 hxa))
      · have hc2 : isOr c = false := by revert hc; cases isOr c <;> simp
        rw [flattenOr_cons_other rest hc2]
        exact List.mem_cons_of_mem _ (ih h1 hxa)

/-- Shape invariant of `cleaned` output: `And`/`Or` contents never hold
exactly one operand, are deduplicated (pairwise `==`-distinct), contain no
child of the same variant (fully flattened), and every quantifier's bound
variable occurs free in its body; all recursively. Sentences with this
shape are fixed points of `cleaned`. -/
inductive FullyClean : Sentence → Prop
  | pred : ∀ (n : String) (args : List Term), FullyClean (.pred n args)
  | not : ∀ s, FullyClean s → FullyClean (.not s)
  | and : ∀ l, l.length ≠ 1 → List.Pairwise (fun x y => peq x y = false) l →
      (∀ x ∈ l, isAnd x = false) → (∀ x ∈ l, FullyClean x) → FullyClean (.and l)
  | or : ∀ l, l.length ≠ 1 → List.Pairwise (fun x y => peq x y = false) l →
      (∀ x ∈ l, isOr x = false) → (∀ x ∈ l, FullyClean x) → FullyClean (.or l)
  | implies : ∀ a b, FullyClean a → FullyClean b → FullyClean (.implies a b)
  | iff : ∀ a b, FullyClean a → FullyClean b → FullyClean (.iff a b)
  | forAll : ∀ v b, v ∈ b.free_variables → FullyClean b → FullyClean (.forAll v b)
  | exist : ∀ v b, v ∈ b.free_variables → FullyClean b → FullyClean (.exist v b)

theorem cleanedL_eq_self : ∀ {ll : List Sentence},
    (∀ x ∈ ll, x.cleaned = x) → cleanedL ll = ll := by
  intro ll h
  induction ll with
  | nil => exact cleanedL_nil
  | cons y ys ih =>
    rw [cleanedL_cons, h y (List.mem_cons_self _ _),
        ih (fun x hx => h x (List.mem_cons_of_mem _ hx))]

/-- A fully clean sentence is a fixed point of `cleaned`. -/
theorem FullyClean.cleaned_eq : ∀ {R : Sentence}, FullyClean R → R.cleaned = R := by
  intro R h
  induction h with
  | pred n args => exact cleaned_pred n args
  | not s _ ih => rw [cleaned_not, ih]
  | and l hlen hpair hnoand _ ih =>
    have hcl : cleanedL l = l := cleanedL_eq_self ih
    have hpd : pdedup (cleanedL l) = l := by rw [hcl]; exact pairwise_pdedup_eq_self hpair
    rw [cleaned_and_multi l (fun e he => by
      rw [hpd] at he
      rw [he] at hlen
      simp at hlen)]
    rw [hpd, flattenAnd_eq_self hnoand, pairwise_pdedup_eq_self hpair]
  | or l hlen hpair hnoor _ ih =>
    have hcl : cleanedL l = l := cleanedL_eq_self ih
    have hpd : pdedup (cleanedL l) = l := by rw [hcl]; exact pairwise_pdedup_eq_self hpair
    rw [cleaned_or_multi l (fun e he => by
      rw [hpd] at he
      rw [he] at hlen
      simp at hlen)]
    rw [hpd, flattenOr_eq_self hnoor, pairwise_pdedup_eq_self hpair]
  | implies a b _ _ iha ihb => rw [cleaned_implies, iha, ihb]
  | iff a b _ _ iha ihb => rw [cleaned_iff_eq, iha, ihb]
  | forAll v b hv _ ihb => rw [cleaned_forAll_mem v b hv, ihb]
  | exist v b hv _ ihb => rw [cleaned_exist_mem v b hv, ihb]

theorem cleanedL_ne_nil {l : List Sentence} (h : l ≠ []) : cleanedL l ≠ [] := by
  rw [cleanedL_eq_map]
  intro hc
  exact h (List.map_eq_nil_iff.mp hc)

/-- On a constructible sentence, `cleaned` establishes the `FullyClean`
shape invariant and preserves constructibility. -/
theorem cleaned_fullyClean : ∀ S : Sentence, wfS S = true →
    FullyClean S.cleaned ∧ wfS S.cleaned = true := by
  refine measureInd msize (fun S => wfS S = true → FullyClean S.cleaned ∧ wfS S.cleaned = true)
    (fun S ih => ?_)
  intro hw
  cases S with
  | pred n args =>
    rw [cleaned_pred]
    exact ⟨FullyClean.pred n args, rfl⟩
  | not s =>
    simp only [wfS] at hw
    obtain ⟨h1, h2⟩ := ih s (by simp [msize]) hw
    rw [cleaned_not]
    exact ⟨FullyClean.not _ h1, by simpa [wfS] using h2⟩
  | implies a b =>
    simp only [wfS, Bool.and_eq_true] at hw
    obtain ⟨ha1, ha2⟩ := ih a (by simp only [msize]; omega) hw.1
    obtain ⟨hb1, hb2⟩ := ih b (by simp only [msize]; omega) hw.2
    rw [cleaned_implies]
    exact ⟨FullyClean.implies _ _ ha1 hb1, by simp [wfS, ha2, hb2]⟩
  | iff a b =>
    simp only [wfS, Bool.and_eq_true] at hw
    obtain ⟨ha1, ha2⟩ := ih a (by simp only [msize]; omega) hw.1
    obtain ⟨hb1, hb2⟩ := ih b (by simp only [msize]; omega) hw.2
    rw [cleaned_iff_eq]
    exact ⟨FullyClean.iff _ _ ha1 hb1, by simp [wfS, ha2, hb2]⟩
  | forAll v b =>
    simp only [wfS] at hw
    obtain ⟨hb1, hb2⟩ := ih b (by simp [msize]) hw
    by_cases hv : v ∈ b.free_variables
    · rw [cleaned_forAll_mem v b hv]
      refine ⟨FullyClean.forAll v _ ?_ hb1, by simpa [wfS] using hb2⟩
      rw [cleaned_free]
      exact hv
    · rw [cleaned_forAll_not_mem v b hv]
      exact ⟨hb1, hb2⟩
  | exist v b =>
    simp only [wfS] at hw
    obtain ⟨hb1, hb2⟩ := ih b (by simp [msize]) hw
    by_cases hv : v ∈ b.free_variables
    · rw [cleaned_exist_mem v b hv]
      refine ⟨FullyClean.exist v _ ?_ hb1, by simpa [wfS] using hb2⟩
      rw [cleaned_free]
      exact hv
    · rw [cleaned_exist_not_mem v b hv]
      exact ⟨hb1, hb2⟩
  | and l =>
    simp only [wfS, Bool.and_eq_true] at hw
    have hlne : l ≠ [] := by
      intro hc
      rw [hc] at hw
      simp at hw
    have hwl := wfL_iff.mp hw.2
    have helem : ∀ x ∈ pdedup (cleanedL l), FullyClean x ∧ wfS x = true := by
      intro x hx
      have hx2 := mem_of_mem_pdedup _ x hx
      rw [cleanedL_eq_map] at hx2
      obtain ⟨c, hc, hcx⟩ := List.mem_map.mp hx2
      subst hcx
      exact ih c (by have := msize_le_of_mem hc; simp only [msize]; omega) (hwl c hc)
    by_cases hsing : ∃ e, pdedup (cleanedL l) = [e]
    · obtain ⟨e, he⟩ := hsing
      rw [cleaned_and_single l e he]
      have h1 := helem e (by rw [he]; exact List.mem_cons_self _ _)
      rw [h1.1.cleaned_eq]
      exact h1
    · rw [cleaned_and_multi l (fun e he => hsing ⟨e, he⟩)]
      have hpne : pdedup (cleanedL l) ≠ [] := by
        intro hc
        exact cleanedL_ne_nil hlne (pdedup_eq_nil hc)
      obtain ⟨e1, ps, hp⟩ : ∃ e1 ps, pdedup (cleanedL l) = e1 :: ps := by
        cases hpc : pdedup (cleanedL l) with
        | nil => exact absurd hpc hpne
        | cons a as => exact ⟨a, as, rfl⟩
      obtain ⟨e2, rest, hps⟩ : ∃ e2 rest, ps = e2 :: rest := by
        cases ps with
        | nil => exact absurd ⟨e1, hp⟩ hsing
        | cons a as => exact ⟨a, as, rfl⟩
      have hpair : List.Pairwise (fun x y => peq x y = false) (pdedup (cleanedL l)) :=
        pdedup_pairwise (cleanedL l)
      have he12 : peq e1 e2 = false := by
        rw [hp, hps] at hpair
        exact (List.pairwise_cons.mp hpair).1 e2 (List.mem_cons_self _ _)
      have he1mem : e1 ∈ pdedup (cleanedL l) := by rw [hp]; exact List.mem_cons_self _ _
      have he2mem : e2 ∈ pdedup (cleanedL l) := by
        rw [hp, hps]
        exact List.mem_cons_of_mem _ (List.mem_cons_self _ _)
      have helemflat : ∀ x ∈ flattenAnd (pdedup (cleanedL l)),
          FullyClean x ∧ wfS x = true ∧ isAnd x = false := by
        intro x hx
        rcases mem_flattenAnd hx with ⟨m, hm, hxm⟩ | ⟨hxp, hxa⟩
        · have h1 := helem _ hm
          have hfc := h1.1
          cases hfc with
          | and _ hlen2 hpair2 hnoand2 hall2 =>
            refine ⟨hall2 x hxm, ?_, hnoand2 x hxm⟩
            have := h1.2
            simp only [wfS, Bool.and_eq_true] at this
            exact wfL_iff.mp this.2 x hxm
        · obtain ⟨h1, h2⟩ := helem x hxp
          exact ⟨h1, h2, hxa⟩
      have hflatne : ∃ z, z ∈ flattenAnd (pdedup (cleanedL l)) := by
        by_cases ha1 : isAnd e1 = true
        · obtain ⟨m1, hm1⟩ : ∃ m1, e1 = .and m1 := by
            cases e1 <;> simp [isAnd] at ha1 ⊢
          have h1 := helem e1 he1mem
          have hmne : m1 ≠ [] := by
            have := h1.2
            rw [hm1] at this
            simp only [wfS, Bool.and_eq_true] at this
            intro hc
            rw [hc] at this
            simp at this
          obtain ⟨z, hz⟩ : ∃ z, z ∈ m1 := by
            cases m1 with
            | nil => exact absurd rfl hmne
            | cons a as => exact ⟨a, List.mem_cons_self _ _⟩
          exact ⟨z, and_content_subset_flattenAnd (hm1 ▸ he1mem) hz⟩
        · have ha2 : isAnd e1 = false := by revert ha1; cases isAnd e1 <;> simp
          exact ⟨e1, mem_flattenAnd_of_mem he1mem ha2⟩
      have htwo : ∃ x1 x2, x1 ∈ flattenAnd (pdedup (cleanedL l)) ∧
          x2 ∈ flattenAnd (pdedup (cleanedL l)) ∧ peq x1 x2 = false := by
        have two_of_and : ∀ e, e ∈ pdedup (cleanedL l) → isAnd e = true →
            ∃ x1 x2, x1 ∈ flattenAnd (pdedup (cleanedL l)) ∧
              x2 ∈ flattenAnd (pdedup (cleanedL l)) ∧ peq x1 x2 = false := by
          intro e hemem hea
          obtain ⟨m1, hm1⟩ : ∃ m1, e = .and m1 := by
            cases e <;> simp [isAnd] at hea ⊢
          have h1 := helem e hemem
          have hfc := h1.1
          rw [hm1] at hfc
          cases hfc with
          | and _ hlen2 hpair2 hnoand2 hall2 =>
            have hmne : m1 ≠ [] := by
              have := h1.2
              rw [hm1] at this
              simp only [wfS, Bool.and_eq_true] at this
              intro hc
              rw [hc] at this
              simp at this
            obtain ⟨x1, x2, rest2, hm⟩ : ∃ x1 x2 rest2, m1 = x1 :: x2 :: rest2 := by
              cases m1 with
              | nil => exact absurd rfl hmne
              | cons a as =>
                cases as with
                | nil => simp at hlen2
                | cons b bs => exact ⟨a, b, bs, rfl⟩
            refine ⟨x1, x2,
              and_content_subset_flattenAnd (hm1 ▸ hemem) (by rw [hm]; exact List.mem_cons_self _ _),
              and_content_subset_flattenAnd (hm1 ▸ hemem)
                (by rw [hm]; exact List.mem_cons_of_mem _ (List.mem_cons_self _ _)), ?_⟩
            rw [hm] at hpair2
            exact (List.pairwise_cons.mp hpair2).1 x2 (List.mem_cons_self _ _)
        by_cases ha1 : isAnd e1 = true
        · exact two_of_and e1 he1mem ha1
        · by_cases ha2 : isAnd e2 = true
          · exact two_of_and e2 he2mem ha2
          · have hb1 : isAnd e1 = false := by revert ha1; cases isAnd e1 <;> simp
            have hb2 : isAnd e2 = false := by revert ha2; cases isAnd e2 <;> simp
            exact ⟨e1, e2, mem_flattenAnd_of_mem he1mem hb1,
              mem_flattenAnd_of_mem he2mem hb2, he12⟩
      obtain ⟨x1, x2, hx1, hx2, hx12⟩ := htwo
      have hlenne : (pdedup (flattenAnd (pdedup (cleanedL l)))).length ≠ 1 :=
        pdedup_length_ne_one hx1 hx2 hx12
      have hresne : pdedup (flattenAnd (pdedup (cleanedL l))) ≠ [] := by
        intro hc
        obtain ⟨z, hz⟩ := hflatne
        rw [pdedup_eq_nil hc] at hz
        cases hz
      constructor
      · refine FullyClean.and _ hlenne (pdedup_pairwise _) ?_ ?_
        · intro x hx
          exact (helemflat x (mem_of_mem_pdedup _ x hx)).2.2
        · intro x hx
          exact (helemflat x (mem_of_mem_pdedup _ x hx)).1
      · simp only [wfS, Bool.and_eq_true]
        constructor
        · cases hres : pdedup (flattenAnd (pdedup (cleanedL l))) with
          | nil => exact absurd hres hresne
          | cons a as => simp
        · refine wfL_iff.mpr (fun x hx => ?_)
          exact (helemflat x (mem_of_mem_pdedup _ x hx)).2.1
  | or l =>
    simp only [wfS, Bool.and_eq_true] at hw
    have hlne : l ≠ [] := by
      intro hc
      rw [hc] at hw
      simp at hw
    have hwl := wfL_iff.mp hw.2
    have helem : ∀ x ∈ pdedup (cleanedL l), FullyClean x ∧ wfS x = true := by
      intro x hx
      have hx2 := mem_of_mem_pdedup _ x hx
      rw [cleanedL_eq_map] at hx2
      obtain ⟨c, hc, hcx⟩ := List.mem_map.mp hx2
      subst hcx
      exact ih c (by have := msize_le_of_mem hc; simp only [msize]; omega) (hwl c hc)
    by_cases hsing : ∃ e, pdedup (cleanedL l) = [e]
    · obtain ⟨e, he⟩ := hsing
      rw [cleaned_or_single l e he]
      have h1 := helem e (by rw [he]; exact List.mem_cons_self _ _)
      rw [h1.1.cleaned_eq]
      exact h1
    · rw [cleaned_or_multi l (fun e he => hsing ⟨e, he⟩)]
      have hpne : pdedup (cleanedL l) ≠ [] := by
        intro hc
        exact cleanedL_ne_nil hlne (pdedup_eq_nil hc)
      obtain ⟨e1, ps, hp⟩ : ∃ e1 ps, pdedup (cleanedL l) = e1 :: ps := by
        cases hpc : pdedup (cleanedL l) with
        | nil => exact absurd hpc hpne
        | cons a as => exact ⟨a, as, rfl⟩
      obtain ⟨e2, rest, hps⟩ : ∃ e2 rest, ps = e2 :: rest := by
        cases ps with
        | nil => exact absurd ⟨e1, hp⟩ hsing
        | cons a as => exact ⟨a, as, rfl⟩
      have hpair : List.Pairwise (fun x y => peq x y = false) (pdedup (cleanedL l)) :=
        pdedup_pairwise (cleanedL l)
      have he12 : peq e1 e2 = false := by
        rw [hp, hps] at hpair
        exact (List.pairwise_cons.mp hpair).1 e2 (List.mem_cons_self _ _)
      have he1mem : e1 ∈ pdedup (cleanedL l) := by rw [hp]; exact List.mem_cons_self _ _
      have he2mem : e2 ∈ pdedup (cleanedL l) := by
        rw [hp, hps]
        exact List.mem_cons_of_mem _ (List.mem_cons_self _ _)
      have helemflat : ∀ x ∈ flattenOr (pdedup (cleanedL l)),
          FullyClean x ∧ wfS x = true ∧ isOr x = false := by
        intro x hx
        rcases mem_flattenOr hx with ⟨m, hm, hxm⟩ | ⟨hxp, hxa⟩
        · have h1 := helem _ hm
          have hfc := h1.1
          cases hfc with
          | or _ hlen2 hpair2 hnoor2 hall2 =>
            refine ⟨hall2 x hxm, ?_, hnoor2 x hxm⟩
            have := h1.2
            simp only [wfS, Bool.and_eq_true] at this
            exact wfL_iff.mp this.2 x hxm
        · obtain ⟨h1, h2⟩ := helem x hxp
          exact ⟨h1, h2, hxa⟩
      have hflatne : ∃ z, z ∈ flattenOr (pdedup (cleanedL l)) := by
        by_cases ha1 : isOr e1 = true
        · obtain ⟨m1, hm1⟩ : ∃ m1, e1 = .or m1 := by
            cases e1 <;> simp [isOr] at ha1 ⊢
          have h1 := helem e1 he1mem
          have hmne : m1 ≠ [] := by
            have := h1.2
            rw [hm1] at this
            simp only [wfS, Bool.and_eq_true] at this
            intro hc
            rw [hc] at this
            simp at this
          obtain ⟨z, hz⟩ : ∃ z, z ∈ m1 := by
            cases m1 with
            | nil => exact absurd rfl hmne
            | cons a as => exact ⟨a, List.mem_cons_self _ _⟩
          exact ⟨z, or_content_subset_flattenOr (hm1 ▸ he1mem) hz⟩
        · have ha2 : isOr e1 = false := by revert ha1; cases isOr e1 <;> simp
          exact ⟨e1, mem_flattenOr_of_mem he1mem ha2⟩
      have htwo : ∃ x1 x2, x1 ∈ flattenOr (pdedup (cleanedL l)) ∧
          x2 ∈ flattenOr (pdedup (cleanedL l)) ∧ peq x1 x2 = false := by
        have two_of_or : ∀ e, e ∈ pdedup (cleanedL l) → isOr e = true →
            ∃ x1 x2, x1 ∈ flattenOr (pdedup (cleanedL l)) ∧
              x2 ∈ flattenOr (pdedup (cleanedL l)) ∧ peq x1 x2 = false := by
          intro e hemem hea
          obtain ⟨m1, hm1⟩ : ∃ m1, e = .or m1 := by
            cases e <;> simp [isOr] at hea ⊢
          have h1 := helem e hemem
          have hfc := h1.1
          rw [hm1] at hfc
          cases hfc with
          | or _ hlen2 hpair2 hnoor2 hall2 =>
            have hmne : m1 ≠ [] := by
              have := h1.2
              rw [hm1] at this
              simp only [wfS, Bool.and_eq_true] at this
              intro hc
              rw [hc] at this
              simp at this
            obtain ⟨x1, x2, rest2, hm⟩ : ∃ x1 x2 rest2, m1 = x1 :: x2 :: rest2 := by
              cases m1 with
              | nil => exact absurd rfl hmne
              | cons a as =>
                cases as with
                | nil => simp at hlen2
                | cons b bs => exact ⟨a, b, bs, rfl⟩
            refine ⟨x1, x2,
              or_content_subset_flattenOr (hm1 ▸ hemem) (by rw [hm]; exact List.mem_cons_self _ _),
              or_content_subset_flattenOr (hm1 ▸ hemem)
                (by rw [hm]; exact List.mem_cons_of_mem _ (List.mem_cons_self _ _)), ?_⟩
            rw [hm] at hpair2
            exact (List.pairwise_cons.mp hpair2).1 x2 (List.mem_cons_self _ _)
        by_cases ha1 : isOr e1 = true
        · exact two_of_or e1 he1mem ha1
        · by_cases ha2 : isOr e2 = true
          · exact two_of_or e2 he2mem ha2
          · have hb1 : isOr e1 = false := by revert ha1; cases isOr e1 <;> simp
            have hb2 : isOr e2 = false := by revert ha2; cases isOr e2 <;> simp
            exact ⟨e1, e2, mem_flattenOr_of_mem he1mem hb1,
              mem_flattenOr_of_mem he2mem hb2, he12⟩
      obtain ⟨x1, x2, hx1, hx2, hx12⟩ := htwo
      have hlenne : (pdedup (flattenOr (pdedup (cleanedL l)))).length ≠ 1 :=
        pdedup_length_ne_one hx1 hx2 hx12
      have hresne : pdedup (flattenOr (pdedup (cleanedL l))) ≠ [] := by
        intro hc
        obtain ⟨z, hz⟩ := hflatne
        rw [pdedup_eq_nil hc] at hz
        cases hz
      constructor
      · refine FullyClean.or _ hlenne (pdedup_pairwise _) ?_ ?_
        · intro x hx
          exact (helemflat x (mem_of_mem_pdedup _ x hx)).2.2
        · intro x hx
          exact (helemflat x (mem_of_mem_pdedup _ x hx)).1
      · simp only [wfS, Bool.and_eq_true]
        constructor
        · cases hres : pdedup (flattenOr (pdedup (cleanedL l))) with
          | nil => exact absurd hres hresne
          | cons a as => simp
        · refine wfL_iff.mpr (fun x hx => ?_)
          exact (helemflat x (mem_of_mem_pdedup _ x hx)).2.1

/-- C6: cleanup is idempotent — for every constructible sentence (each
`And`/`Or` built with at least one operand, as the Python constructors
require), `S.cleaned().cleaned() == S.cleaned()`.  In fact the model's
second cleanup is definitionally the same sentence, from which the Python
`==` (`peq`) follows. -/
theorem cleaned_idempotent (S : Sentence) (h : wfS S = true) :
    peq S.cleaned.cleaned S.cleaned = true := by
  rw [(cleaned_fullyClean S h).1.cleaned_eq]
  exact peq_refl _

/-- Witness for `cleaned_idempotent` at the concrete sentence
`And(ForAll x. P, Q)` (whose cleanup drops the vacuous quantifier). -/
theorem cleaned_idempotent_witness :
    wfS (.and [.forAll xV (.pred "P" []), .pred "Q" []]) = true ∧
    peq (Sentence.and [.forAll xV (.pred "P" []), .pred "Q" []]).cleaned.cleaned
      (Sentence.and [.forAll xV (.pred "P" []), .pred "Q" []]).cleaned = true :=
  ⟨rfl, cleaned_idempotent (.and [.forAll xV (.pred "P" []), .pred "Q" []]) rfl⟩

end Resolution
